import Mathlib

/-!
# Verification of the oroio credential-store engine

A shallow embedding of the key-manager module (`keyManager.ts`): the
salted-container codec built on AES-256-CBC, the tab/newline store
serialization, the usage cache file format, and the engine operations
`addKey`, `removeKey`, `useKey`, `getKeyList`, together with proofs of the
specified properties.

Strings and files are modelled as lists of byte values (`List Nat`).
JavaScript numbers that the program only ever uses at integer values are
modelled as `Int`.
-/

deriving instance DecidableEq for Except

namespace Oroio

/-- Byte strings: lists of byte values. -/
abbrev Bytes := List Nat

/-- Byte values of an ASCII string literal (each character's code point).
Used to write the program's string constants readably. -/
def ascii (s : String) : Bytes := s.data.map Char.toNat

/-- The tab byte, `'\t'`. -/
def TAB : Nat := 9

/-- The line-feed byte, `'\n'`. -/
def LF : Nat := 10

/-- JavaScript `String.prototype.trim` whitespace, restricted to the ASCII
range (the only characters this program ever writes into trimmed positions). -/
def jsWs (b : Nat) : Bool := b = 9 || b = 10 || b = 11 || b = 12 || b = 13 || b = 32

/-- Models `s.split(sep)` on byte strings: splits at every occurrence of `sep`;
the empty string yields the single group `[[]]`, as in JavaScript. -/
def splitByte (sep : Nat) : Bytes → List Bytes
  | [] => [[]]
  | b :: bs =>
    if b = sep then [] :: splitByte sep bs
    else
      match splitByte sep bs with
      | [] => [[b]]
      | g :: gs => (b :: g) :: gs

/-- Models `lines.join('\n')` on byte strings: intercalates a single `sep` byte. -/
def joinByte (sep : Nat) : List Bytes → Bytes
  | [] => []
  | [l] => l
  | l :: ls => l ++ sep :: joinByte sep ls

/-- Models `s.trim()` on byte strings (ASCII whitespace, see `jsWs`). -/
def trimBytes (bs : Bytes) : Bytes :=
  ((bs.dropWhile jsWs).reverse.dropWhile jsWs).reverse

/-- A byte string is blank when it trims to nothing, i.e. every byte is
whitespace; `line.trim()` is falsy in JavaScript exactly in this case. -/
def isBlank (bs : Bytes) : Bool := bs.all jsWs

/-- Models `line.split('\t')[0]`: the text before the first tab. -/
def firstField (bs : Bytes) : Bytes := bs.takeWhile (fun b => b != TAB)

/-! ## Store text serialization

The store plaintext is `keys.map(k => k + "\t").join("\n")`; parsing is
`text.split('\n').filter(line => line.trim()).map(line => line.split('\t')[0])`
(`decryptKeys`, part_005 line 57; `encryptKeys`, line 65). -/

/-- Models `keys.map(k => k + "\t").join("\n")` (part_005 line 65). -/
def serializeKeys : List Bytes → Bytes
  | [] => []
  | [k] => k ++ [TAB]
  | k :: ks => k ++ [TAB] ++ LF :: serializeKeys ks

/-- Models `text.split('\n').filter(line => line.trim()).map(line => line.split('\t')[0])`
(part_005 line 57). -/
def parseKeys (text : Bytes) : List Bytes :=
  ((splitByte LF text).filter (fun l => !isBlank l)).map firstField

/-- A well-formed secret: not blank, and free of tab and newline bytes.
Exactly the strings the store serialization round-trips. -/
def wfKey (k : Bytes) : Prop := isBlank k = false ∧ TAB ∉ k ∧ LF ∉ k

instance (k : Bytes) : Decidable (wfKey k) := by
  unfold wfKey; infer_instance

/-! ### Serialization lemmas -/

theorem splitByte_no_sep {sep : Nat} : ∀ {l : Bytes}, sep ∉ l → splitByte sep l = [l]
  | [], _ => rfl
  | b :: bs, h => by
    have hb : b ≠ sep := fun e => h (e ▸ List.mem_cons_self b bs)
    have hbs : sep ∉ bs := fun m => h (List.mem_cons_of_mem b m)
    simp only [splitByte, if_neg hb, splitByte_no_sep hbs]

theorem splitByte_append_sep {sep : Nat} (b : Bytes) :
    ∀ {a : Bytes}, sep ∉ a → splitByte sep (a ++ sep :: b) = a :: splitByte sep b := by
  intro a
  induction a with
  | nil => intro _; simp [splitByte]
  | cons x xs ih =>
    intro h
    have hx : x ≠ sep := fun e => h (e ▸ List.mem_cons_self x xs)
    have hxs : sep ∉ xs := fun m => h (List.mem_cons_of_mem x m)
    have ih' := ih hxs
    simp only [List.cons_append, splitByte, if_neg hx, List.append_eq, ih']

theorem splitByte_ne_nil {sep : Nat} : ∀ (l : Bytes), splitByte sep l ≠ []
  | [] => by simp [splitByte]
  | b :: bs => by
    simp only [splitByte]
    split
    · exact List.cons_ne_nil _ _
    · split <;> exact List.cons_ne_nil _ _

/-- Every group produced by `splitByte` is free of the separator. -/
theorem splitByte_mem_no_sep {sep : Nat} :
    ∀ {l : Bytes} {g : Bytes}, g ∈ splitByte sep l → sep ∉ g := by
  intro l
  induction l with
  | nil =>
    intro g hg
    simp only [splitByte, List.mem_singleton] at hg
    simp [hg]
  | cons b bs ih =>
    intro g hg
    simp only [splitByte] at hg
    by_cases hb : b = sep
    · rw [if_pos hb] at hg
      rcases List.mem_cons.mp hg with h | h
      · simp [h]
      · exact ih h
    · rw [if_neg hb] at hg
      rcases hsp : splitByte sep bs with _ | ⟨g0, gs⟩
      · exact absurd hsp (splitByte_ne_nil bs)
      · rw [hsp] at hg
        rcases List.mem_cons.mp hg with h | h
        · subst h
          intro hm
          rcases List.mem_cons.mp hm with h' | h'
          · exact hb h'.symm
          · exact ih (hsp ▸ List.mem_cons_self g0 gs) h'
        · exact ih (hsp ▸ List.mem_cons_of_mem g0 h)

theorem isBlank_append_tab (k : Bytes) : isBlank (k ++ [TAB]) = isBlank k := by
  simp [isBlank, List.all_append, TAB, jsWs]

theorem firstField_append_tab : ∀ {k : Bytes}, TAB ∉ k → firstField (k ++ [TAB]) = k := by
  intro k
  induction k with
  | nil => intro _; simp [firstField, List.takeWhile]
  | cons x xs ih =>
    intro h
    have hx : x ≠ TAB := fun e => h (e ▸ List.mem_cons_self x xs)
    have hxs : TAB ∉ xs := fun m => h (List.mem_cons_of_mem x m)
    simp only [firstField] at ih ⊢
    simp [List.takeWhile_cons, hx, ih hxs]

/-- Parsing the serialization of tab/newline-free keys keeps exactly the
non-blank ones. -/
theorem parseKeys_serializeKeys_filter :
    ∀ {ks : List Bytes}, (∀ k ∈ ks, TAB ∉ k ∧ LF ∉ k) →
      parseKeys (serializeKeys ks) = ks.filter (fun k => !isBlank k) := by
  intro ks
  induction ks with
  | nil => intro _; rfl
  | cons k ks ih =>
    intro h
    have hk := h k (List.mem_cons_self k ks)
    have hks : ∀ k' ∈ ks, TAB ∉ k' ∧ LF ∉ k' := fun k' m => h k' (List.mem_cons_of_mem k m)
    have hnl : LF ∉ k ++ [TAB] := by
      intro hm
      rcases List.mem_append.mp hm with h' | h'
      · exact hk.2 h'
      · simp [TAB, LF] at h'
    cases ks with
    | nil =>
      show parseKeys (k ++ [TAB]) = _
      unfold parseKeys
      rw [splitByte_no_sep hnl]
      by_cases hb : isBlank k
      · simp [List.filter, isBlank_append_tab, hb]
      · simp only [List.filter, isBlank_append_tab, hb, Bool.not_false, List.map_cons,
          List.map_nil, firstField_append_tab hk.1]
    | cons k2 ks2 =>
      have hser : serializeKeys (k :: k2 :: ks2)
          = (k ++ [TAB]) ++ LF :: serializeKeys (k2 :: ks2) := rfl
      unfold parseKeys
      rw [hser, splitByte_append_sep (serializeKeys (k2 :: ks2)) hnl]
      have ihh := ih hks
      unfold parseKeys at ihh
      by_cases hb : isBlank k
      · have h1 : (!isBlank (k ++ [TAB])) = false := by simp [isBlank_append_tab, hb]
        have h2 : (!isBlank k) = false := by simp [hb]
        simp only [List.filter_cons, h1, h2, Bool.false_eq_true, if_false]
        simpa [List.filter_cons] using ihh
      · have h1 : (!isBlank (k ++ [TAB])) = true := by
          rw [isBlank_append_tab]
          simpa using hb
        have h2 : (!isBlank k) = true := by simpa using hb
        simp only [List.filter_cons, h1, h2, if_true, List.map_cons]
        rw [firstField_append_tab hk.1, ihh]
        simp [List.filter_cons]

/-- Round-trip of the store text serialization for well-formed keys. -/
theorem parseKeys_serializeKeys {ks : List Bytes} (h : ∀ k ∈ ks, wfKey k) :
    parseKeys (serializeKeys ks) = ks := by
  rw [parseKeys_serializeKeys_filter (fun k m => ⟨(h k m).2.1, (h k m).2.2⟩)]
  exact List.filter_eq_self.mpr (fun k m => by simp [(h k m).1])

/-- Every key produced by `parseKeys` is tab- and newline-free. -/
theorem parseKeys_mem_tab_lf_free {text : Bytes} {x : Bytes} (h : x ∈ parseKeys text) :
    TAB ∉ x ∧ LF ∉ x := by
  unfold parseKeys at h
  rcases List.mem_map.mp h with ⟨l, hl, hfx⟩
  have hl' : l ∈ splitByte LF text := List.mem_of_mem_filter hl
  have hnl : LF ∉ l := splitByte_mem_no_sep hl'
  constructor
  · intro hm
    rw [← hfx] at hm
    have := List.mem_takeWhile_imp hm
    simp at this
  · intro hm
    rw [← hfx] at hm
    exact hnl (List.takeWhile_sublist _ |>.mem hm)

/-! ## Codec: the salted AES-256-CBC container

`encryptKeys`/`decryptKeys` (part_005 lines 29–69) wrap Node's
`crypto.createCipheriv('aes-256-cbc', key, iv)`, which is CBC mode with
PKCS#7 padding over the AES-256 block permutation, and
`crypto.pbkdf2Sync` for key/IV derivation.  CBC, the padding and the
container layout are modelled concretely; the AES-256 keyed block
permutation and the PBKDF2 derivation are parameters of the model
(`CryptoModel`), constrained by the block-cipher laws they satisfy. -/

/-- The AES block size in bytes. -/
def BLOCK : Nat := 16

/-- PKCS#7 padding to a multiple of the block size: appends `n` copies of the
byte `n`, where `n = 16 - len % 16` (always between 1 and 16). -/
def pad16 (p : Bytes) : Bytes :=
  p ++ List.replicate (BLOCK - p.length % BLOCK) (BLOCK - p.length % BLOCK)

/-- PKCS#7 unpadding: the last byte `n` must be in `[1, 16]` and the last `n`
bytes must all equal `n`; strips them.  `none` models the OpenSSL
bad-decrypt error thrown by `decipher.final()`. -/
def unpad16 (q : Bytes) : Option Bytes :=
  match q.getLast? with
  | none => none
  | some n =>
    if 1 ≤ n ∧ n ≤ BLOCK ∧ n ≤ q.length ∧ (q.drop (q.length - n)).all (fun b => b == n)
    then some (q.take (q.length - n)) else none

/-- Fuel-driven block splitter (structural recursion so the kernel can
evaluate it; the fuel is always sufficient at the call site). -/
def chunks16Aux : Nat → Bytes → List Bytes
  | 0, _ => []
  | _ + 1, [] => []
  | fuel + 1, b :: bs => ((b :: bs).take BLOCK) :: chunks16Aux fuel ((b :: bs).drop BLOCK)

/-- Split a byte string into 16-byte blocks (the last block may be shorter
if the length is not a multiple of 16). -/
def chunks16 (bs : Bytes) : List Bytes := chunks16Aux bs.length bs

theorem chunks16Aux_nil : ∀ (f : Nat), chunks16Aux f [] = []
  | 0 => rfl
  | _ + 1 => rfl

theorem chunks16Aux_fuel_irrel :
    ∀ (f₁ : Nat) (bs : Bytes) (f₂ : Nat), bs.length ≤ f₁ → bs.length ≤ f₂ →
      chunks16Aux f₁ bs = chunks16Aux f₂ bs := by
  intro f₁
  induction f₁ with
  | zero =>
    intro bs f₂ h₁ _
    have : bs = [] := List.eq_nil_of_length_eq_zero (Nat.le_zero.mp h₁)
    subst this
    rw [chunks16Aux_nil, chunks16Aux_nil]
  | succ f ih =>
    intro bs f₂ h₁ h₂
    cases bs with
    | nil => rw [chunks16Aux_nil, chunks16Aux_nil]
    | cons b rest =>
      cases f₂ with
      | zero => simp at h₂
      | succ f₂' =>
        show _ :: chunks16Aux f ((b :: rest).drop BLOCK)
            = _ :: chunks16Aux f₂' ((b :: rest).drop BLOCK)
        congr 1
        have hB : BLOCK = 16 := rfl
        have hlen : ((b :: rest).drop BLOCK).length = (b :: rest).length - BLOCK := by
          simp
        refine ih _ f₂' ?_ ?_ <;> (rw [hlen]; simp only [List.length_cons] at h₁ h₂ ⊢; omega)

/-- Pointwise XOR of two byte strings (truncating to the shorter). -/
def zipXor (a b : Bytes) : Bytes := List.zipWith (fun x y => x ^^^ y) a b

/-- CBC encryption of a block sequence: each plaintext block is XORed with the
previous ciphertext block (initially the IV) before the block cipher. -/
def cbcEncAux (enc : Bytes → Bytes) (prev : Bytes) : List Bytes → List Bytes
  | [] => []
  | b :: bs => enc (zipXor prev b) :: cbcEncAux enc (enc (zipXor prev b)) bs

/-- CBC decryption of a block sequence. -/
def cbcDecAux (dec : Bytes → Bytes) (prev : Bytes) : List Bytes → List Bytes
  | [] => []
  | c :: cs => zipXor prev (dec c) :: cbcDecAux dec c cs

/-- The cryptographic primitives the codec is built on: `kdf` models
`deriveKeyAndIV` (part_005 lines 29–40, `pbkdf2Sync` over the fixed
passphrase and the given salt, split into a 32-byte key and 16-byte IV);
`enc`/`dec` model the keyed AES-256 block permutation and its inverse. -/
structure CryptoModel where
  kdf : Bytes → Bytes × Bytes
  enc : Bytes → Bytes → Bytes
  dec : Bytes → Bytes → Bytes

/-- The block-cipher laws the AES-256 primitives satisfy: the permutation
preserves the block size, decryption inverts encryption, and the derived IV
is one block long. -/
def CryptoModel.Lawful (cm : CryptoModel) : Prop :=
  (∀ k b, b.length = BLOCK → (cm.enc k b).length = BLOCK) ∧
  (∀ k b, b.length = BLOCK → cm.dec k (cm.enc k b) = b) ∧
  (∀ s, (cm.kdf s).2.length = BLOCK)

/-- The literal ASCII container magic `"Salted__"`. -/
def SaltedHeader : Bytes := ascii "Salted__"

/-- Decryption errors: `badFormat` is the `'Invalid encrypted file format'`
header failure (part_005 line 45); `badPadding` is the OpenSSL bad-decrypt
thrown by `decipher.final()` on a wrong key or corrupted ciphertext. -/
inductive CryptoErr where
  | badFormat
  | badPadding
deriving DecidableEq, Repr

/-- Models `encryptKeys`' byte layer (part_005 lines 60–69): emits
`"Salted__" ++ salt ++ AES-256-CBC(pad(p))`, with the key and IV derived
from the salt. -/
def encryptBytes (cm : CryptoModel) (salt p : Bytes) : Bytes :=
  SaltedHeader ++ salt ++
    (cbcEncAux (cm.enc (cm.kdf salt).1) (cm.kdf salt).2 (chunks16 (pad16 p))).flatten

/-- Models `decryptKeys`' byte layer (part_005 lines 42–55): checks the 8-byte magic,
re-derives key/IV from bytes 8–16, CBC-decrypts bytes 16.. and strips the
PKCS#7 padding. -/
def decryptBytes (cm : CryptoModel) (data : Bytes) : Except CryptoErr Bytes :=
  if data.take 8 ≠ SaltedHeader then .error .badFormat
  else if (data.drop 16).length % BLOCK ≠ 0 then .error .badPadding
  else
    match unpad16 ((cbcDecAux (cm.dec (cm.kdf ((data.drop 8).take 8)).1)
        (cm.kdf ((data.drop 8).take 8)).2 (chunks16 (data.drop 16))).flatten) with
    | some p => .ok p
    | none => .error .badPadding

/-- Models `decryptKeys` (part_005 lines 42–58): byte-layer decryption followed by the
line/tab parse of the plaintext. -/
def decryptKeysM (cm : CryptoModel) (data : Bytes) : Except CryptoErr (List Bytes) :=
  (decryptBytes cm data).map parseKeys

/-- Models `encryptKeys` (part_005 lines 60–69), with the random salt lifted to a
parameter (`crypto.randomBytes(8)` in the source). -/
def encryptKeysM (cm : CryptoModel) (salt : Bytes) (ks : List Bytes) : Bytes :=
  encryptBytes cm salt (serializeKeys ks)

/-! ### Codec round-trip -/

theorem chunks16_nil : chunks16 [] = [] := rfl

theorem chunks16_cons {bs : Bytes} (h : bs ≠ []) :
    chunks16 bs = bs.take BLOCK :: chunks16 (bs.drop BLOCK) := by
  cases bs with
  | nil => exact absurd rfl h
  | cons b rest =>
    show ((b :: rest).take BLOCK) :: chunks16Aux rest.length ((b :: rest).drop BLOCK) = _
    congr 1
    refine chunks16Aux_fuel_irrel rest.length _ _ ?_ (le_refl _)
    have hB : BLOCK = 16 := rfl
    simp only [List.length_drop, List.length_cons]
    omega

theorem flatten_chunks16 (bs : Bytes) : (chunks16 bs).flatten = bs := by
  by_cases h : bs = []
  · subst h; rw [chunks16_nil]; rfl
  · rw [chunks16_cons h, List.flatten_cons, flatten_chunks16 (bs.drop BLOCK),
      List.take_append_drop]
termination_by bs.length
decreasing_by
  have hB : BLOCK = 16 := rfl
  simp only [List.length_drop]
  have : 0 < bs.length := List.length_pos.mpr h
  omega

theorem chunks16_flatten {cs : List Bytes} (h : ∀ c ∈ cs, c.length = BLOCK) :
    chunks16 cs.flatten = cs := by
  induction cs with
  | nil => simp [chunks16_nil]
  | cons c cs ih =>
    have hc : c.length = BLOCK := h c (List.mem_cons_self c cs)
    have hne : c ++ cs.flatten ≠ [] := by
      intro e
      have := congrArg List.length e
      simp [hc, BLOCK] at this
    rw [List.flatten_cons, chunks16_cons hne]
    have h1 : (c ++ cs.flatten).take BLOCK = c := by
      rw [← hc, List.take_left]
    have h2 : (c ++ cs.flatten).drop BLOCK = cs.flatten := by
      rw [← hc, List.drop_left]
    rw [h1, h2, ih (fun c' m => h c' (List.mem_cons_of_mem c m))]

theorem chunks16_length_blocks (bs : Bytes) (hm : bs.length % 16 = 0) :
    ∀ c ∈ chunks16 bs, c.length = BLOCK := by
  have hB : BLOCK = 16 := rfl
  by_cases h : bs = []
  · subst h; simp [chunks16_nil]
  · intro c hc
    have hpos : 0 < bs.length := List.length_pos.mpr h
    have hge : 16 ≤ bs.length := by
      by_contra hlt
      push_neg at hlt
      have h2 := Nat.mod_eq_of_lt hlt
      omega
    rw [chunks16_cons h] at hc
    rcases List.mem_cons.mp hc with h' | h'
    · rw [h', List.length_take, hB]
      omega
    · exact chunks16_length_blocks (bs.drop BLOCK)
        (by simp only [List.length_drop, hB]; omega) c h'
termination_by bs.length
decreasing_by
  have hB : BLOCK = 16 := rfl
  have hpos : 0 < bs.length := List.length_pos.mpr h
  simp only [List.length_drop]
  omega

theorem zipXor_length (a b : Bytes) : (zipXor a b).length = min a.length b.length := by
  simp [zipXor]

theorem zipXor_cancel : ∀ {a b : Bytes}, a.length = b.length → zipXor a (zipXor a b) = b := by
  intro a
  induction a with
  | nil =>
    intro b h
    have hb : b = [] := List.eq_nil_of_length_eq_zero h.symm
    subst hb
    rfl
  | cons x xs ih =>
    intro b h
    cases b with
    | nil => simp at h
    | cons y ys =>
      simp only [zipXor, List.zipWith_cons_cons] at *
      rw [← Nat.xor_assoc, Nat.xor_self, Nat.zero_xor]
      congr 1
      exact ih (by simpa using h)

theorem cbcEncAux_mem_length {enc : Bytes → Bytes}
    (hlen : ∀ b, b.length = BLOCK → (enc b).length = BLOCK) :
    ∀ (blocks : List Bytes) (prev : Bytes), prev.length = BLOCK →
      (∀ b ∈ blocks, b.length = BLOCK) →
      ∀ c ∈ cbcEncAux enc prev blocks, c.length = BLOCK := by
  intro blocks
  induction blocks with
  | nil => intro prev _ _ c hc; simp [cbcEncAux] at hc
  | cons b bs ih =>
    intro prev hprev hall c hc
    have hb : b.length = BLOCK := hall b (List.mem_cons_self b bs)
    have hxb : (zipXor prev b).length = BLOCK := by
      rw [zipXor_length, hprev, hb]; simp
    rcases List.mem_cons.mp hc with h' | h'
    · rw [h']; exact hlen _ hxb
    · exact ih (enc (zipXor prev b)) (hlen _ hxb) (fun x m => hall x (List.mem_cons_of_mem b m)) c h'

theorem cbcDecAux_cbcEncAux {enc dec : Bytes → Bytes}
    (hlen : ∀ b, b.length = BLOCK → (enc b).length = BLOCK)
    (hinv : ∀ b, b.length = BLOCK → dec (enc b) = b) :
    ∀ (blocks : List Bytes) (prev : Bytes), prev.length = BLOCK →
      (∀ b ∈ blocks, b.length = BLOCK) →
      cbcDecAux dec prev (cbcEncAux enc prev blocks) = blocks := by
  intro blocks
  induction blocks with
  | nil => intro prev _ _; rfl
  | cons b bs ih =>
    intro prev hprev hall
    have hb : b.length = BLOCK := hall b (List.mem_cons_self b bs)
    have hxb : (zipXor prev b).length = BLOCK := by
      rw [zipXor_length, hprev, hb]; simp
    simp only [cbcEncAux, cbcDecAux]
    rw [hinv _ hxb, zipXor_cancel (by rw [hprev, hb])]
    rw [ih (enc (zipXor prev b)) (hlen _ hxb) (fun x m => hall x (List.mem_cons_of_mem b m))]

theorem unpad16_pad16 (p : Bytes) : unpad16 (pad16 p) = some p := by
  have hmod : p.length % BLOCK < BLOCK := Nat.mod_lt _ (by simp [BLOCK])
  set n := BLOCK - p.length % BLOCK with hn
  have hn1 : 1 ≤ n := by omega
  have hrepeq : (List.replicate n n : Bytes) = List.replicate (n - 1) n ++ [n] := by
    have h1 : n = (n - 1) + 1 := by omega
    nth_rewrite 1 [h1]
    rw [List.replicate_succ']
  have hlast : (pad16 p).getLast? = some n := by
    unfold pad16
    rw [← hn, hrepeq, ← List.append_assoc, List.getLast?_concat]
  have hlen : (pad16 p).length = p.length + n := by
    simp [pad16, ← hn]
  have hdrop : (pad16 p).drop ((pad16 p).length - n) = List.replicate n n := by
    rw [hlen]
    simp only [Nat.add_sub_cancel]
    unfold pad16
    rw [← hn, List.drop_left]
  have htake : (pad16 p).take ((pad16 p).length - n) = p := by
    rw [hlen]
    simp only [Nat.add_sub_cancel]
    unfold pad16
    rw [← hn, List.take_left]
  have hcond : 1 ≤ n ∧ n ≤ BLOCK ∧ n ≤ (pad16 p).length ∧
      (((pad16 p).drop ((pad16 p).length - n)).all (fun b => b == n)) = true := by
    refine ⟨hn1, by omega, by omega, ?_⟩
    rw [hdrop]
    simp [List.all_eq_true, List.mem_replicate]
  unfold unpad16
  rw [hlast]
  show (if 1 ≤ n ∧ n ≤ BLOCK ∧ n ≤ (pad16 p).length ∧
      (((pad16 p).drop ((pad16 p).length - n)).all (fun b => b == n)) = true
    then some ((pad16 p).take ((pad16 p).length - n)) else none) = some p
  rw [if_pos hcond, htake]

theorem pad16_length_mod (p : Bytes) : (pad16 p).length % 16 = 0 := by
  have hB : BLOCK = 16 := rfl
  simp only [pad16, List.length_append, List.length_replicate, hB]
  omega

/-- Byte-level codec round-trip: for every lawful cipher model, every 8-byte
salt and every plaintext, decryption inverts encryption. -/
theorem decryptBytes_encryptBytes (cm : CryptoModel) (hl : cm.Lawful)
    (salt : Bytes) (hs : salt.length = 8) (p : Bytes) :
    decryptBytes cm (encryptBytes cm salt p) = .ok p := by
  obtain ⟨hlen, hinv, hiv⟩ := hl
  have hhd : SaltedHeader.length = 8 := rfl
  set key := (cm.kdf salt).1 with hkey
  set iv := (cm.kdf salt).2 with hivdef
  set ctb := (cbcEncAux (cm.enc key) iv (chunks16 (pad16 p))).flatten with hctb
  have henc : encryptBytes cm salt p = (SaltedHeader ++ salt) ++ ctb := by
    simp [encryptBytes, ← hkey, ← hivdef, ← hctb, List.append_assoc]
  have hlen16 : (SaltedHeader ++ salt).length = 16 := by
    simp [hhd, hs]
  have htake8 : ((SaltedHeader ++ salt) ++ ctb).take 8 = SaltedHeader := by
    rw [List.append_assoc, ← hhd, List.take_left]
  have hdrop8 : ((SaltedHeader ++ salt) ++ ctb).drop 8 = salt ++ ctb := by
    rw [List.append_assoc, ← hhd, List.drop_left]
  have hsalt : (((SaltedHeader ++ salt) ++ ctb).drop 8).take 8 = salt := by
    rw [hdrop8, ← hs, List.take_left]
  have hdrop16 : ((SaltedHeader ++ salt) ++ ctb).drop 16 = ctb := by
    rw [← hlen16, List.drop_left]
  have hpadblocks : ∀ c ∈ chunks16 (pad16 p), c.length = BLOCK :=
    chunks16_length_blocks (pad16 p) (pad16_length_mod p)
  have hctblocks : ∀ c ∈ cbcEncAux (cm.enc key) iv (chunks16 (pad16 p)), c.length = BLOCK :=
    cbcEncAux_mem_length (hlen key) (chunks16 (pad16 p)) iv (hiv salt) hpadblocks
  have hctmod : ctb.length % BLOCK = 0 := by
    rw [hctb]
    have : ∀ cs : List Bytes, (∀ c ∈ cs, c.length = BLOCK) → cs.flatten.length % BLOCK = 0 := by
      intro cs
      induction cs with
      | nil => intro _; simp
      | cons c cs ih =>
        intro hall
        have hc := hall c (List.mem_cons_self c cs)
        have := ih (fun x m => hall x (List.mem_cons_of_mem c m))
        have hB : BLOCK = 16 := rfl
        rw [hB] at this ⊢
        simp only [List.flatten_cons, List.length_append, hc, hB]
        omega
    exact this _ hctblocks
  rw [henc]
  unfold decryptBytes
  rw [if_neg (by rw [htake8]; exact fun hne => hne rfl)]
  have hB : BLOCK = 16 := rfl
  rw [if_neg (by rw [hdrop16]; exact fun hne => hne hctmod)]
  rw [hsalt, hdrop16, hctb, chunks16_flatten hctblocks, ← hkey, ← hivdef,
    cbcDecAux_cbcEncAux (hlen key) (hinv key) (chunks16 (pad16 p)) iv (hiv salt) hpadblocks,
    flatten_chunks16, unpad16_pad16]

/-- Store-level round-trip: decrypting an encrypted key list yields the
line/tab parse of its serialization (for any lawful cipher model). -/
theorem decryptKeysM_encryptKeysM (cm : CryptoModel) (hl : cm.Lawful)
    (salt : Bytes) (hs : salt.length = 8) (ks : List Bytes) :
    decryptKeysM cm (encryptKeysM cm salt ks) = .ok (parseKeys (serializeKeys ks)) := by
  unfold decryptKeysM encryptKeysM
  rw [decryptBytes_encryptBytes cm hl salt hs]
  rfl

/-- Store-level round-trip for well-formed keys. -/
theorem decryptKeysM_encryptKeysM_wf (cm : CryptoModel) (hl : cm.Lawful)
    (salt : Bytes) (hs : salt.length = 8) (ks : List Bytes) (hwf : ∀ k ∈ ks, wfKey k) :
    decryptKeysM cm (encryptKeysM cm salt ks) = .ok ks := by
  rw [decryptKeysM_encryptKeysM cm hl salt hs, parseKeys_serializeKeys hwf]

/-- A concrete lawful cipher model used to evaluate the development on closed
inputs: the identity block permutation with an all-zero KDF.  (The statements
proved about `CryptoModel` hold for any lawful model, AES-256 included; this
instance only serves concrete evaluation.) -/
def testCM : CryptoModel where
  kdf _ := (List.replicate 32 0, List.replicate BLOCK 0)
  enc _ b := b
  dec _ b := b

theorem testCM_lawful : testCM.Lawful :=
  ⟨fun _ _ h => h, fun _ _ _ => rfl, fun _ => by simp [testCM]⟩

/-- The all-zero 8-byte salt used for concrete evaluation. -/
def testSalt : Bytes := List.replicate 8 0

/-! ## Decimal numerals and JavaScript number parsing

The program's numeric fields only ever hold integer values, so JavaScript
numbers are modelled as `Int`; `parseFloat`/`parseInt` are modelled on the
integer-valued decimal strings the program itself writes, with `none`
standing for `NaN`. -/

/-- ASCII decimal digit test. -/
def isDigit (b : Nat) : Bool := 48 ≤ b && b ≤ 57

/-- Numeric value of a digit string. -/
def decVal (ds : Bytes) : Nat := ds.foldl (fun a b => a * 10 + (b - 48)) 0

/-- Fuel-driven decimal rendering (structural recursion so the kernel can
evaluate it; the fuel is always sufficient at the call site). -/
def natToDecAux : Nat → Nat → Bytes
  | 0, _ => []
  | fuel + 1, n => if n < 10 then [48 + n] else natToDecAux fuel (n / 10) ++ [48 + n % 10]

/-- Models `String(n)` for a natural number. -/
def natToDec (n : Nat) : Bytes := natToDecAux (n + 1) n

/-- Models `String(i)` for an integer-valued JavaScript number. -/
def intToDec (i : Int) : Bytes := if i < 0 then 45 :: natToDec i.natAbs else natToDec i.toNat

/-- Longest digit prefix, as a number; `none` when there is no digit. -/
def digitsPrefixVal (bs : Bytes) : Option Nat :=
  if bs.takeWhile isDigit = [] then none else some (decVal (bs.takeWhile isDigit))

/-- Models `parseInt(s, 10)`: skips leading whitespace, accepts an optional sign and
the longest digit prefix, ignores anything after it; `none` models `NaN`.
(The exotic JavaScript corners — exponent forms, non-ASCII whitespace — never
arise for the strings this program stores.) -/
def parseIntLoose (bs : Bytes) : Option Int :=
  if (bs.dropWhile jsWs).head? = some 45 then
    (digitsPrefixVal ((bs.dropWhile jsWs).drop 1)).map (fun n => -(n : Int))
  else if (bs.dropWhile jsWs).head? = some 43 then
    (digitsPrefixVal ((bs.dropWhile jsWs).drop 1)).map (fun n => (n : Int))
  else (digitsPrefixVal (bs.dropWhile jsWs)).map (fun n => (n : Int))

/-- Models `parseFloat(s)` on the integer-valued decimal strings this program writes
(an optional sign and the longest digit prefix); `none` models `NaN`. -/
def parseFloatInt (bs : Bytes) : Option Int :=
  if (bs.dropWhile jsWs).head? = some 45 then
    (digitsPrefixVal ((bs.dropWhile jsWs).drop 1)).map (fun n => -(n : Int))
  else (digitsPrefixVal (bs.dropWhile jsWs)).map (fun n => (n : Int))

/-- Models `readCurrentIndex` (part_005 lines 98–105): reads the active-pointer file,
`parseInt(content.trim(), 10) || 1`; an absent file, `NaN` or `0` all give 1. -/
def readCurrentIndexM (cur : Option Bytes) : Int :=
  match cur with
  | none => 1
  | some bs =>
    match parseIntLoose (trimBytes bs) with
    | none => 1
    | some i => if i = 0 then 1 else i

/-! ### Decimal round-trip lemmas -/

theorem natToDecAux_spec :
    ∀ (f n : Nat), n < 10 ^ (f + 1) →
      natToDecAux (f + 1) n ≠ [] ∧ (∀ b ∈ natToDecAux (f + 1) n, isDigit b = true) ∧
        decVal (natToDecAux (f + 1) n) = n := by
  intro f
  induction f with
  | zero =>
    intro n h
    have hn : n < 10 := by simpa using h
    refine ⟨by simp [natToDecAux, hn], ?_, ?_⟩
    · intro b hb
      simp only [natToDecAux, if_pos hn, List.mem_singleton] at hb
      subst hb
      simp [isDigit]
      omega
    · simp [natToDecAux, hn, decVal]
  | succ f ih =>
    intro n h
    by_cases hn : n < 10
    · refine ⟨by simp [natToDecAux, hn], ?_, ?_⟩
      · intro b hb
        simp only [natToDecAux, if_pos hn, List.mem_singleton] at hb
        subst hb
        simp [isDigit]
        omega
      · simp [natToDecAux, hn, decVal]
    · have hdiv : n / 10 < 10 ^ (f + 1) := by
        rw [Nat.div_lt_iff_lt_mul (by norm_num)]
        calc n < 10 ^ (f + 1 + 1) := h
        _ = 10 ^ (f + 1) * 10 := by ring
      obtain ⟨hne, hdig, hval⟩ := ih (n / 10) hdiv
      refine ⟨by simp [natToDecAux, hn], ?_, ?_⟩
      · intro b hb
        simp only [natToDecAux, if_neg hn, List.mem_append, List.mem_singleton] at hb
        rcases hb with hb | hb
        · exact hdig b hb
        · subst hb
          simp [isDigit]
          omega
      · simp only [natToDecAux, if_neg hn, decVal, List.foldl_append]
        show (decVal (natToDecAux (f + 1) (n / 10))) * 10 + (48 + n % 10 - 48) = n
        rw [hval]
        omega

theorem natToDec_bound (n : Nat) : n < 10 ^ (n + 1) :=
  Nat.lt_trans (Nat.lt_pow_self (by norm_num) n) (Nat.pow_lt_pow_succ (by norm_num))

theorem natToDec_ne_nil (n : Nat) : natToDec n ≠ [] :=
  (natToDecAux_spec n n (natToDec_bound n)).1

theorem natToDec_digits (n : Nat) : ∀ b ∈ natToDec n, isDigit b = true :=
  (natToDecAux_spec n n (natToDec_bound n)).2.1

theorem decVal_natToDec (n : Nat) : decVal (natToDec n) = n :=
  (natToDecAux_spec n n (natToDec_bound n)).2.2

theorem isDigit_props {b : Nat} (h : isDigit b = true) :
    jsWs b = false ∧ b ≠ 45 ∧ b ≠ 43 ∧ b ≠ TAB ∧ b ≠ LF ∧ b ≠ 61 ∧ b < 256 := by
  simp only [isDigit, Bool.and_eq_true, decide_eq_true_eq] at h
  refine ⟨?_, by omega, by omega, by simp [TAB]; omega, by simp [LF]; omega, by omega, by omega⟩
  simp only [jsWs]
  simp only [Bool.or_eq_false_iff, decide_eq_false_iff_not]
  omega

theorem dropWhile_of_all_neg {p : Nat → Bool} :
    ∀ {l : Bytes}, (∀ b ∈ l, p b = false) → l.dropWhile p = l
  | [], _ => rfl
  | x :: xs, h => by
    rw [List.dropWhile_cons_of_neg]
    simp [h x (List.mem_cons_self x xs)]

theorem takeWhile_of_all_pos {p : Nat → Bool} :
    ∀ {l : Bytes}, (∀ b ∈ l, p b = true) → l.takeWhile p = l
  | [], _ => rfl
  | x :: xs, h => by
    rw [List.takeWhile_cons_of_pos (h x (List.mem_cons_self x xs))]
    rw [takeWhile_of_all_pos (fun b m => h b (List.mem_cons_of_mem x m))]

theorem trimBytes_of_no_ws {l : Bytes} (h : ∀ b ∈ l, jsWs b = false) : trimBytes l = l := by
  unfold trimBytes
  rw [dropWhile_of_all_neg h,
    dropWhile_of_all_neg (fun b m => h b (List.mem_reverse.mp m)), List.reverse_reverse]

theorem digitsPrefixVal_natToDec (n : Nat) : digitsPrefixVal (natToDec n) = some n := by
  unfold digitsPrefixVal
  rw [takeWhile_of_all_pos (natToDec_digits n)]
  rw [if_neg (natToDec_ne_nil n), decVal_natToDec n]

theorem parseIntLoose_natToDec (n : Nat) : parseIntLoose (natToDec n) = some (n : Int) := by
  have hdig := natToDec_digits n
  have hdw : (natToDec n).dropWhile jsWs = natToDec n :=
    dropWhile_of_all_neg (fun b m => (isDigit_props (hdig b m)).1)
  unfold parseIntLoose
  rw [hdw]
  rcases hcons : natToDec n with _ | ⟨c, r⟩
  · exact absurd hcons (natToDec_ne_nil n)
  · have hc := isDigit_props (hdig c (hcons ▸ List.mem_cons_self c r))
    rw [if_neg (by simp [hc.2.1]), if_neg (by simp [hc.2.2.1]), ← hcons,
      digitsPrefixVal_natToDec n]
    rfl

theorem parseFloatInt_natToDec (n : Nat) : parseFloatInt (natToDec n) = some (n : Int) := by
  have hdig := natToDec_digits n
  have hdw : (natToDec n).dropWhile jsWs = natToDec n :=
    dropWhile_of_all_neg (fun b m => (isDigit_props (hdig b m)).1)
  unfold parseFloatInt
  rw [hdw]
  rcases hcons : natToDec n with _ | ⟨c, r⟩
  · exact absurd hcons (natToDec_ne_nil n)
  · have hc := isDigit_props (hdig c (hcons ▸ List.mem_cons_self c r))
    rw [if_neg (by simp [hc.2.1]), ← hcons, digitsPrefixVal_natToDec n]
    rfl

theorem parseFloatInt_intToDec (i : Int) : parseFloatInt (intToDec i) = some i := by
  unfold intToDec
  by_cases hneg : i < 0
  · rw [if_pos hneg]
    have hdw : ((45 : Nat) :: natToDec i.natAbs).dropWhile jsWs = 45 :: natToDec i.natAbs := by
      rw [List.dropWhile_cons_of_neg]
      simp [jsWs]
    unfold parseFloatInt
    rw [hdw]
    rw [if_pos (by simp), List.drop_one, List.tail_cons, digitsPrefixVal_natToDec]
    have habs : ((i.natAbs : Int)) = -i := by omega
    simp [habs]
  · rw [if_neg hneg, parseFloatInt_natToDec]
    congr 1
    omega

/-- Reading the pointer file recovers any positive index written as `String(j)`. -/
theorem readCurrentIndexM_natToDec {j : Nat} (h : 1 ≤ j) :
    readCurrentIndexM (some (natToDec j)) = (j : Int) := by
  have hdig := natToDec_digits j
  show (match parseIntLoose (trimBytes (natToDec j)) with
    | none => 1
    | some i => if i = 0 then 1 else i) = (j : Int)
  rw [trimBytes_of_no_ws (fun b m => (isDigit_props (hdig b m)).1), parseIntLoose_natToDec]
  show (if ((j : Int)) = 0 then 1 else ((j : Int))) = (j : Int)
  rw [if_neg (by omega)]

/-! ## Base64

Models `Buffer.toString('base64')` / `Buffer.from(s, 'base64')` (part_005
lines 142 and 266) on the well-formed strings this program writes.  Node's
decoder is lenient on malformed input; the model returns a truncated result
there, which the development never relies on — every decode it reasons
about is of an encoder output. -/

/-- The base64 alphabet, index 0–63 to ASCII. -/
def b64Char (n : Nat) : Nat :=
  if n < 26 then 65 + n
  else if n < 52 then 97 + (n - 26)
  else if n < 62 then 48 + (n - 52)
  else if n = 62 then 43 else 47

/-- Inverse of the base64 alphabet; `none` for non-alphabet bytes. -/
def b64Val (c : Nat) : Option Nat :=
  if 65 ≤ c ∧ c ≤ 90 then some (c - 65)
  else if 97 ≤ c ∧ c ≤ 122 then some (c - 97 + 26)
  else if 48 ≤ c ∧ c ≤ 57 then some (c - 48 + 52)
  else if c = 43 then some 62
  else if c = 47 then some 63
  else none

/-- Standard padded base64 encoding of a byte string. -/
def b64Encode : Bytes → Bytes
  | [] => []
  | [a] => [b64Char (a / 4), b64Char (a % 4 * 16), 61, 61]
  | [a, b] => [b64Char (a / 4), b64Char (a % 4 * 16 + b / 16), b64Char (b % 16 * 4), 61]
  | a :: b :: c :: rest =>
    b64Char (a / 4) :: b64Char (a % 4 * 16 + b / 16) :: b64Char (b % 16 * 4 + c / 64) ::
      b64Char (c % 64) :: b64Encode rest

/-- Base64 decoding of a padded encoding, quartet by quartet (non-alphabet
bytes are read as 0; they never occur in the encodings this program writes). -/
def b64Decode : Bytes → Bytes
  | c1 :: c2 :: c3 :: c4 :: rest =>
    if c3 = 61 then [(b64Val c1).getD 0 * 4 + (b64Val c2).getD 0 / 16]
    else if c4 = 61 then
      [(b64Val c1).getD 0 * 4 + (b64Val c2).getD 0 / 16,
       (b64Val c2).getD 0 % 16 * 16 + (b64Val c3).getD 0 / 4]
    else
      ((b64Val c1).getD 0 * 4 + (b64Val c2).getD 0 / 16)
        :: ((b64Val c2).getD 0 % 16 * 16 + (b64Val c3).getD 0 / 4)
        :: ((b64Val c3).getD 0 % 4 * 64 + (b64Val c4).getD 0)
        :: b64Decode rest
  | _ => []

theorem b64Val_b64Char : ∀ v < 64, b64Val (b64Char v) = some v := by decide

theorem b64Char_ne_61 : ∀ v < 64, b64Char v ≠ 61 := by decide

theorem b64Char_not_tab (v : Nat) : b64Char v ≠ TAB := by
  unfold b64Char TAB
  split_ifs <;> omega

theorem b64Char_not_lf (v : Nat) : b64Char v ≠ LF := by
  unfold b64Char LF
  split_ifs <;> omega

theorem b64Decode_b64Encode : ∀ (bs : Bytes), (∀ x ∈ bs, x < 256) →
    b64Decode (b64Encode bs) = bs
  | [], _ => rfl
  | [a], h => by
    have ha : a < 256 := h a (by simp)
    have h1 : a / 4 < 64 := by omega
    have h2 : a % 4 * 16 < 64 := by omega
    show b64Decode [b64Char (a / 4), b64Char (a % 4 * 16), 61, 61] = [a]
    unfold b64Decode
    rw [if_pos rfl, b64Val_b64Char _ h1, b64Val_b64Char _ h2]
    simp only [Option.getD_some]
    congr 1
    omega
  | [a, b], h => by
    have ha : a < 256 := h a (by simp)
    have hb : b < 256 := h b (by simp)
    have h1 : a / 4 < 64 := by omega
    have h2 : a % 4 * 16 + b / 16 < 64 := by omega
    have h3 : b % 16 * 4 < 64 := by omega
    show b64Decode [b64Char (a / 4), b64Char (a % 4 * 16 + b / 16), b64Char (b % 16 * 4), 61]
        = [a, b]
    unfold b64Decode
    rw [if_neg (b64Char_ne_61 _ h3), if_pos rfl,
      b64Val_b64Char _ h1, b64Val_b64Char _ h2, b64Val_b64Char _ h3]
    simp only [Option.getD_some]
    congr 1
    · omega
    · congr 1
      omega
  | a :: b :: c :: rest, h => by
    have ha : a < 256 := h a (by simp)
    have hb : b < 256 := h b (by simp)
    have hc : c < 256 := h c (by simp)
    have h1 : a / 4 < 64 := by omega
    have h2 : a % 4 * 16 + b / 16 < 64 := by omega
    have h3 : b % 16 * 4 + c / 64 < 64 := by omega
    have h4 : c % 64 < 64 := by omega
    have ih := b64Decode_b64Encode rest
      (fun x m => h x (List.mem_cons_of_mem a (List.mem_cons_of_mem b
        (List.mem_cons_of_mem c m))))
    show b64Decode (b64Char (a / 4) :: b64Char (a % 4 * 16 + b / 16)
        :: b64Char (b % 16 * 4 + c / 64) :: b64Char (c % 64) :: b64Encode rest)
        = a :: b :: c :: rest
    unfold b64Decode
    rw [if_neg (b64Char_ne_61 _ h3), if_neg (b64Char_ne_61 _ h4),
      b64Val_b64Char _ h1, b64Val_b64Char _ h2, b64Val_b64Char _ h3, b64Val_b64Char _ h4]
    simp only [Option.getD_some]
    rw [ih]
    congr 1
    · omega
    · congr 1
      · omega
      · congr 1
        omega

theorem b64Encode_ne_nil : ∀ {bs : Bytes}, bs ≠ [] → b64Encode bs ≠ []
  | [], h => absurd rfl h
  | [_], _ => by simp [b64Encode]
  | [_, _], _ => by simp [b64Encode]
  | _ :: _ :: _ :: _, _ => by simp [b64Encode]

theorem b64Encode_not_tab_lf : ∀ (bs : Bytes), ∀ x ∈ b64Encode bs, x ≠ TAB ∧ x ≠ LF
  | [], x, hx => by simp [b64Encode] at hx
  | [a], x, hx => by
    simp only [b64Encode, List.mem_cons, List.not_mem_nil, or_false] at hx
    rcases hx with h | h | h | h <;> subst h <;>
      first
        | exact ⟨b64Char_not_tab _, b64Char_not_lf _⟩
        | exact ⟨by decide, by decide⟩
  | [a, b], x, hx => by
    simp only [b64Encode, List.mem_cons, List.not_mem_nil, or_false] at hx
    rcases hx with h | h | h | h <;> subst h <;>
      first
        | exact ⟨b64Char_not_tab _, b64Char_not_lf _⟩
        | exact ⟨by decide, by decide⟩
  | a :: b :: c :: rest, x, hx => by
    simp only [b64Encode, List.mem_cons] at hx
    rcases hx with h | h | h | h | h
    · subst h; exact ⟨b64Char_not_tab _, b64Char_not_lf _⟩
    · subst h; exact ⟨b64Char_not_tab _, b64Char_not_lf _⟩
    · subst h; exact ⟨b64Char_not_tab _, b64Char_not_lf _⟩
    · subst h; exact ⟨b64Char_not_tab _, b64Char_not_lf _⟩
    · exact b64Encode_not_tab_lf rest x h

/-! ## Usage records and the cache file -/

/-- Models `KeyUsage` (part_005 lines 14–20).  JavaScript numbers are `Int` here (the
program only stores integer token counts); `none` is `null`. -/
structure KeyUsage where
  balance : Option Int
  total : Option Int
  used : Option Int
  expires : Bytes
  raw : Bytes
deriving DecidableEq, Repr

/-- The all-unknown record
`{ balance: null, total: null, used: null, expires: '?', raw: '' }`
(part_005 line 297). -/
def allUnknown : KeyUsage := ⟨none, none, none, ascii "?", []⟩

/-- The `key=value` dump `writeCache` base64-encodes for one record
(part_005 lines 258–265); a `null` numeric field is written as `0`. -/
def usageInfoBytes (u : KeyUsage) : Bytes :=
  ascii "BALANCE=" ++ intToDec (u.balance.getD 0) ++ LF ::
  (ascii "BALANCE_NUM=" ++ intToDec (u.balance.getD 0) ++ LF ::
  (ascii "TOTAL=" ++ intToDec (u.total.getD 0) ++ LF ::
  (ascii "USED=" ++ intToDec (u.used.getD 0) ++ LF ::
  (ascii "EXPIRES=" ++ u.expires ++ LF ::
  (ascii "RAW=" ++ u.raw)))))

/-- The key of a `key=value` line: the text before the first `=`. -/
def eqKey (line : Bytes) : Bytes := line.takeWhile (fun b => b != 61)

/-- The value of a `key=value` line: `valueParts.join('=')`, i.e. everything
after the first `=` (empty when the line has no `=`). -/
def eqVal (line : Bytes) : Bytes := (line.dropWhile (fun b => b != 61)).drop 1

/-- Models `data[name]` after the accumulation loop of `parseUsageInfo`
(part_005 lines 109–116): the value of the last line whose key is `name`.
(The source's `if (key)` guard only skips empty keys; every lookup below uses
a non-empty name, so the behavior agrees.) -/
def recGet (lines : List Bytes) (name : Bytes) : Option Bytes :=
  (lines.filterMap (fun l => if eqKey l = name then some (eqVal l) else none)).getLast?

/-- Models `data[k] ? parseFloat(data[k]) : null` — an absent or empty field is
`null` (`parseFloat` of a non-numeric string, `NaN`, is also `none` here). -/
def numFieldM (o : Option Bytes) : Option Int :=
  o.elim none (fun v => if v = [] then none else parseFloatInt v)

/-- Models `data[k] || d` — an absent or empty field falls back to the default. -/
def strFieldM (d : Bytes) (o : Option Bytes) : Bytes :=
  o.elim d (fun v => if v = [] then d else v)

/-- Models `parseUsageInfo` (part_005 lines 107–125). -/
def parseUsageInfo (text : Bytes) : KeyUsage :=
  { balance := numFieldM (recGet (splitByte LF text) (ascii "BALANCE_NUM"))
    total := numFieldM (recGet (splitByte LF text) (ascii "TOTAL"))
    used := numFieldM (recGet (splitByte LF text) (ascii "USED"))
    expires := strFieldM (ascii "?") (recGet (splitByte LF text) (ascii "EXPIRES"))
    raw := strFieldM [] (recGet (splitByte LF text) (ascii "RAW")) }

/-- One cache entry line `"<i>\t<base64(dump)>"` (part_005 line 267). -/
def cacheEntryLine (i : Nat) (u : KeyUsage) : Bytes :=
  natToDec i ++ TAB :: b64Encode (usageInfoBytes u)

/-- The entry lines of a cache write, positions `i, i+1, …`. -/
def entryLines (i : Nat) : List KeyUsage → List Bytes
  | [] => []
  | u :: us => cacheEntryLine i u :: entryLines (i + 1) us

/-- Models `writeCache` (part_005 lines 250–271): the file content — generation
timestamp line, integrity-tag line (`sha1` hex of the encrypted store,
lifted to a parameter), then one entry line per position. -/
def writeCacheContent (now : Nat) (hashHex : Bytes) (usages : List KeyUsage) : Bytes :=
  joinByte LF (natToDec now :: hashHex :: entryLines 0 usages)

/-- Association list modelling the JavaScript `Map`: `mapSet` overwrites an
existing key in place, otherwise appends. -/
def mapSet (m : List (Nat × KeyUsage)) (k : Nat) (v : KeyUsage) : List (Nat × KeyUsage) :=
  if m.any (fun p => p.1 == k) then
    m.map (fun p => if p.1 = k then (k, v) else p)
  else m ++ [(k, v)]

/-- Models `Map.get`. -/
def mapGet (m : List (Nat × KeyUsage)) (k : Nat) : Option KeyUsage :=
  (m.find? (fun p => p.1 == k)).map (fun p => p.2)

/-- One iteration of the `readCache` entry loop (part_005 lines 135–148):
trim the line, skip it when blank or when either tab-field is missing,
otherwise decode and store under the parsed index.  (An entry whose index
parses to `NaN` or a negative number is skipped here; in the source it is
stored under a key no non-negative integer lookup ever observes.) -/
def readCacheLine (m : List (Nat × KeyUsage)) (line : Bytes) : List (Nat × KeyUsage) :=
  if trimBytes line = [] then m
  else
    if (trimBytes line).takeWhile (fun b => b != TAB) = [] ∨
        (((trimBytes line).dropWhile (fun b => b != TAB)).drop 1).takeWhile
          (fun b => b != TAB) = [] then m
    else
      match parseIntLoose ((trimBytes line).takeWhile (fun b => b != TAB)) with
      | some i =>
        if 0 ≤ i then
          mapSet m i.toNat (parseUsageInfo (b64Decode
            ((((trimBytes line).dropWhile (fun b => b != TAB)).drop 1).takeWhile
              (fun b => b != TAB))))
        else m
      | none => m

/-- Models `readCache` (part_005 lines 127–154): an absent file or one with fewer
than three lines reads as the empty map; otherwise every line from the third
on is processed by `readCacheLine`. -/
def readCacheM (cf : Option Bytes) : List (Nat × KeyUsage) :=
  match cf with
  | none => []
  | some content =>
    if (splitByte LF content).length < 3 then []
    else ((splitByte LF content).drop 2).foldl readCacheLine []

/-! ## The engine operations -/

/-- One row of `getKeyList`'s result (part_005 lines 22–27). -/
structure KeyInfo where
  key : Bytes
  index : Nat
  isCurrent : Bool
  usage : Option KeyUsage
deriving DecidableEq, Repr

/-- The three files of the store directory:
`keys.enc`, `current`, `list_cache.b64` (part_005 lines 6–9). -/
structure FsState where
  keysFile : Option Bytes
  currentFile : Option Bytes
  cacheFile : Option Bytes
deriving DecidableEq, Repr

/-- The rows `keys.map((key, idx) => ({...}))` builds (part_005 lines
166–171), with `idx` running from the given start. -/
def keyInfoRows (cur : Int) (cache : List (Nat × KeyUsage)) :
    Nat → List Bytes → List KeyInfo
  | _, [] => []
  | idx, k :: ks =>
    ⟨k, idx + 1, ((idx : Int) + 1) == cur, mapGet cache idx⟩
      :: keyInfoRows cur cache (idx + 1) ks

/-- The `readEncryptedKeys(); decryptKeys(data)` step each operation starts
with (part_005 lines 94–96 and 164, 280–281, 310–311, 329–330): `none` when
the store file is missing (`fs.readFile` throws) or cannot be decrypted. -/
def loadKeysM (cm : CryptoModel) (st : FsState) : Option (List Bytes) :=
  match st.keysFile with
  | none => none
  | some data =>
    match decryptKeysM cm data with
    | .error _ => none
    | .ok keys => some keys

/-- Models `getKeyList` (part_005 lines 156–176): decrypts the store, reads the
pointer and the cache, and zips them into rows; any error inside the `try` —
a missing store file or an undecryptable store — is caught (line 172) and
yields the empty list. -/
def getKeyListM (cm : CryptoModel) (st : FsState) : List KeyInfo :=
  match loadKeysM cm st with
  | none => []
  | some keys =>
    keyInfoRows (readCurrentIndexM st.currentFile) (readCacheM st.cacheFile) 0 keys

/-- Outcome tag of an engine operation.  The source returns
`{success, message?, error?}` with human-readable text; `indexOutOfRange` is
the `'序号超出范围'` error and `opError` any caught exception. -/
inductive EngineResult where
  | success
  | indexOutOfRange
  | opError
deriving DecidableEq, Repr

/-- Models `addKey` (part_005 lines 273–306).  The ambient effects are parameters:
`salt` is the fresh random salt of the re-encryption, `now` the timestamp,
`hashFn` the `sha1` hex digest of the new store file, `fetched` the
`fetchUsage` result for the new key.  A missing or undecryptable store reads
as no existing keys and an empty cache (lines 279–285); the store is then
re-encrypted and written without invalidating the cache, and the merged
usage list — old positions carried from the old cache, missing ones filled
with the all-unknown record, the fetched record appended — is written. -/
def addKeyM (cm : CryptoModel) (salt : Bytes) (now : Nat) (hashFn : Bytes → Bytes)
    (fetched : KeyUsage) (key : Bytes) (st : FsState) : EngineResult × FsState :=
  let loaded : List Bytes × List (Nat × KeyUsage) :=
    match loadKeysM cm st with
    | none => ([], [])
    | some ks => (ks, readCacheM st.cacheFile)
  let newKeys := loaded.1 ++ [key]
  let keysBytes := encryptKeysM cm salt newKeys
  let usages := (List.range loaded.1.length).map
      (fun i => (mapGet loaded.2 i).getD allUnknown) ++ [fetched]
  (.success,
   { st with
      keysFile := some keysBytes
      cacheFile := some (writeCacheContent now (hashFn keysBytes) usages) })

/-- Models `keys.filter((_, i) => i + 1 !== index)` (part_005 line 317), with the
running zero-based position as an explicit argument. -/
def keysFilterNe (index : Int) : Nat → List Bytes → List Bytes
  | _, [] => []
  | i, k :: ks =>
    if ((i : Int) + 1) = index then keysFilterNe index (i + 1) ks
    else k :: keysFilterNe index (i + 1) ks

/-- Models `removeKey` (part_005 lines 308–325): decrypts the store (failure →
error, no mutation), rejects an index outside `[1, len]` (no mutation),
otherwise saves the filtered list via `saveKeys` — which re-encrypts with a
fresh salt and unlinks the cache — and writes `'1'` to the pointer file. -/
def removeKeyM (cm : CryptoModel) (salt : Bytes) (index : Int) (st : FsState) :
    EngineResult × FsState :=
  match loadKeysM cm st with
  | none => (.opError, st)
  | some keys =>
    if index < 1 ∨ index > keys.length then (.indexOutOfRange, st)
    else
      (.success,
       { keysFile := some (encryptKeysM cm salt (keysFilterNe index 0 keys))
         cacheFile := none
         currentFile := some (ascii "1") })

/-- Models `useKey` (part_005 lines 327–343): decrypts the store (failure → error,
no mutation), rejects an index outside `[1, len]` (no mutation), otherwise
writes `String(index)` to the pointer file; the store and cache files are
never touched. -/
def useKeyM (cm : CryptoModel) (index : Int) (st : FsState) : EngineResult × FsState :=
  match loadKeysM cm st with
  | none => (.opError, st)
  | some keys =>
    if index < 1 ∨ index > keys.length then (.indexOutOfRange, st)
    else (.success, { st with currentFile := some (intToDec index) })

/-! ## The usage fetcher -/

/-- The usage-section fields `fetchUsage` probes (part_005 lines 220–224). -/
structure UsageSection where
  totalAllowance : Option Int
  basicAllowance : Option Int
  allowance : Option Int
  orgTotalTokensUsed : Option Int
  used : Option Int
  tokensUsed : Option Int
  orgOverageUsed : Option Int
deriving DecidableEq, Repr

/-- A JSON expiry value: a number or a string (part_005 lines 233–241). -/
inductive ExpVal where
  | num (n : Int)
  | str (s : Bytes)
deriving DecidableEq, Repr

/-- The `usage` object fields `fetchUsage` probes (part_005 lines 220, 233). -/
structure UsageObj where
  standard : Option UsageSection
  premium : Option UsageSection
  total : Option UsageSection
  main : Option UsageSection
  endDate : Option ExpVal
  expireAt : Option ExpVal
  expiresAt : Option ExpVal
deriving DecidableEq, Repr

/-- The observable outcome of the single outbound request: a network failure
or abort/timeout (the catch path), or a response with an HTTP status whose
body either fails to parse as JSON (`none` — `response.json()` throws into
the same catch) or yields an optional `usage` object. -/
inductive FetchOutcome where
  | netFailure
  | response (status : Nat) (body : Option (Option UsageObj))
deriving DecidableEq, Repr

/-- Models `usage.standard || usage.premium || usage.total || usage.main`
(part_005 line 220). -/
def sectionOf (u : UsageObj) : Option UsageSection :=
  (u.standard.orElse (fun _ => u.premium)).orElse
    (fun _ => u.total.orElse (fun _ => u.main))

/-- Models `fetchUsage` (part_005 lines 183–248) as a function of the request
outcome.  `fmtDate` is a parameter modelling
`new Date(ts * 1000).toISOString().split('T')[0]` for an epoch-milliseconds
value.  The function is total: every outcome produces a `KeyUsage`, which is
the model of "never throws to the caller". -/
def fetchUsageM (fmtDate : Int → Bytes) : FetchOutcome → KeyUsage
  | .netFailure => ⟨some 0, some 0, some 0, ascii "Error", ascii "fetch_error"⟩
  | .response status body =>
    if ¬(200 ≤ status ∧ status ≤ 299) then
      ⟨some 0, some 0, some 0, ascii "Invalid key", ascii "http_" ++ natToDec status⟩
    else
      match body with
      | none => ⟨some 0, some 0, some 0, ascii "Error", ascii "fetch_error"⟩
      | some none => ⟨some 0, some 0, some 0, ascii "?", ascii "no_usage"⟩
      | some (some usage) =>
        let base : KeyUsage := ⟨some 0, some 0, some 0, ascii "?", []⟩
        let withTotals :=
          match sectionOf usage with
          | none => base
          | some sec =>
            let totalF := (sec.totalAllowance.orElse (fun _ => sec.basicAllowance)).orElse
              (fun _ => sec.allowance)
            let used0 := ((sec.orgTotalTokensUsed.orElse (fun _ => sec.used)).orElse
              (fun _ => sec.tokensUsed)).getD 0
            let usedT := used0 + sec.orgOverageUsed.getD 0
            match totalF with
            | none => base
            | some t =>
              { base with total := some t, used := some usedT, balance := some (t - usedT) }
        match (usage.endDate.orElse (fun _ => usage.expireAt)).orElse
            (fun _ => usage.expiresAt) with
        | none => withTotals
        | some (.num n) => { withTotals with expires := fmtDate n }
        | some (.str s) =>
          if s ≠ [] ∧ s.all isDigit then { withTotals with expires := fmtDate (decVal s) }
          else { withTotals with expires := s }

/-! ## File-operation traces (persistence behavior of `saveKeys`) -/

/-- The three file paths of the store directory. -/
inductive FsPath where
  | keysEnc
  | currentTxt
  | cacheB64
deriving DecidableEq, Repr

/-- A file-system operation, as issued by the engine. -/
inductive FsOp where
  | mkdirp
  | write (p : FsPath) (data : Bytes)
  | unlink (p : FsPath)
  | rename (src dst : FsPath)
deriving DecidableEq, Repr

def isRenameOp : FsOp → Bool
  | .rename _ _ => true
  | _ => false

def getFile (st : FsState) : FsPath → Option Bytes
  | .keysEnc => st.keysFile
  | .currentTxt => st.currentFile
  | .cacheB64 => st.cacheFile

def setFile (st : FsState) : FsPath → Option Bytes → FsState
  | .keysEnc, d => { st with keysFile := d }
  | .currentTxt, d => { st with currentFile := d }
  | .cacheB64, d => { st with cacheFile := d }

/-- Apply one completed file operation. -/
def applyOp (st : FsState) : FsOp → FsState
  | .mkdirp => st
  | .write p d => setFile st p (some d)
  | .unlink p => setFile st p none
  | .rename src dst => setFile (setFile st dst (getFile st src)) src none

def runOps (st : FsState) (ops : List FsOp) : FsState := ops.foldl applyOp st

/-- Models `saveKeys` (part_005 lines 87–92) as the sequence of file operations it
performs: `ensureStore` (mkdir -p), a single direct `fs.writeFile` of the
encrypted store to its final path, then `invalidateCache` (unlink of the
cache file).  There is no temp-file-plus-rename step. -/
def saveKeysTrace (cm : CryptoModel) (salt : Bytes) (ks : List Bytes) : List FsOp :=
  [.mkdirp, .write .keysEnc (encryptKeysM cm salt ks), .unlink .cacheB64]

/-- A state observable if the process crashes mid-trace: some prefix of the
operations has completed, and the operation in flight — when it is a write —
may have transferred any proper prefix of its bytes. -/
def CrashObservable (st : FsState) (ops : List FsOp) (st' : FsState) : Prop :=
  ∃ pre op post, ops = pre ++ op :: post ∧
    ((∃ p d m, op = FsOp.write p d ∧ m < d.length ∧
        st' = setFile (runOps st pre) p (some (d.take m))) ∨
      st' = runOps st pre)

/-! ## Cache round-trip lemmas -/

/-- What survives a cache write/read cycle: the numeric fields lose `null`
(written as `0`), an empty `expires` renders as `"?"`. -/
def coerceRecord (u : KeyUsage) : KeyUsage :=
  ⟨some (u.balance.getD 0), some (u.total.getD 0), some (u.used.getD 0),
   if u.expires = [] then ascii "?" else u.expires, u.raw⟩

/-- A string field the cache line format can carry: byte-valued and free of
newlines (a newline would break the `key=value` line layout). -/
def cleanStr (s : Bytes) : Prop := LF ∉ s ∧ ∀ b ∈ s, b < 256

instance (s : Bytes) : Decidable (cleanStr s) := by
  unfold cleanStr; infer_instance

theorem intToDec_not_lf (i : Int) : LF ∉ intToDec i := by
  intro hm
  unfold intToDec at hm
  by_cases hneg : i < 0
  · rw [if_pos hneg] at hm
    rcases List.mem_cons.mp hm with h | h
    · simp [LF] at h
    · exact (isDigit_props (natToDec_digits _ _ h)).2.2.2.2.1 rfl
  · rw [if_neg hneg] at hm
    exact (isDigit_props (natToDec_digits _ _ hm)).2.2.2.2.1 rfl

theorem intToDec_not_tab (i : Int) : TAB ∉ intToDec i := by
  intro hm
  unfold intToDec at hm
  by_cases hneg : i < 0
  · rw [if_pos hneg] at hm
    rcases List.mem_cons.mp hm with h | h
    · simp [TAB] at h
    · exact (isDigit_props (natToDec_digits _ _ h)).2.2.2.1 rfl
  · rw [if_neg hneg] at hm
    exact (isDigit_props (natToDec_digits _ _ hm)).2.2.2.1 rfl

theorem intToDec_lt_256 (i : Int) : ∀ b ∈ intToDec i, b < 256 := by
  intro b hm
  unfold intToDec at hm
  by_cases hneg : i < 0
  · rw [if_pos hneg] at hm
    rcases List.mem_cons.mp hm with h | h
    · omega
    · exact (isDigit_props (natToDec_digits _ _ h)).2.2.2.2.2.2
  · rw [if_neg hneg] at hm
    exact (isDigit_props (natToDec_digits _ _ hm)).2.2.2.2.2.2

theorem intToDec_ne_nil (i : Int) : intToDec i ≠ [] := by
  unfold intToDec
  by_cases h : i < 0
  · rw [if_pos h]
    exact List.cons_ne_nil _ _
  · rw [if_neg h]
    exact natToDec_ne_nil _

theorem natToDec_not_lf (n : Nat) : LF ∉ natToDec n :=
  fun hm => (isDigit_props (natToDec_digits _ _ hm)).2.2.2.2.1 rfl

theorem natToDec_not_tab (n : Nat) : TAB ∉ natToDec n :=
  fun hm => (isDigit_props (natToDec_digits _ _ hm)).2.2.2.1 rfl

theorem takeWhile_append_stop {p : Nat → Bool} :
    ∀ {a : Bytes} {x : Nat} {b : Bytes}, (∀ c ∈ a, p c = true) → p x = false →
      ((a ++ x :: b).takeWhile p) = a
  | [], x, b, _, hx => by simp [List.takeWhile_cons, hx]
  | c :: a, x, b, h, hx => by
    rw [List.cons_append, List.takeWhile_cons_of_pos (h c (List.mem_cons_self c a)),
      takeWhile_append_stop (fun d m => h d (List.mem_cons_of_mem _ m)) hx]

theorem dropWhile_append_stop {p : Nat → Bool} :
    ∀ {a : Bytes} {x : Nat} {b : Bytes}, (∀ c ∈ a, p c = true) → p x = false →
      ((a ++ x :: b).dropWhile p) = x :: b
  | [], x, b, _, hx => by simp [List.dropWhile_cons, hx]
  | c :: a, x, b, h, hx => by
    rw [List.cons_append, List.dropWhile_cons_of_pos (h c (List.mem_cons_self c a)),
      dropWhile_append_stop (fun d m => h d (List.mem_cons_of_mem _ m)) hx]

theorem eqKey_line {name val : Bytes} (h : ∀ c ∈ name, c ≠ 61) :
    eqKey (name ++ 61 :: val) = name := by
  unfold eqKey
  exact takeWhile_append_stop (fun c m => by simp [h c m]) (by simp)

theorem eqVal_line {name val : Bytes} (h : ∀ c ∈ name, c ≠ 61) :
    eqVal (name ++ 61 :: val) = val := by
  unfold eqVal
  rw [dropWhile_append_stop (fun c m => by simp [h c m]) (by simp)]
  rfl

/-- The line structure of the usage dump, given newline-free string fields. -/
theorem splitByte_usageInfo (u : KeyUsage) (hexp : LF ∉ u.expires) (hraw : LF ∉ u.raw) :
    splitByte LF (usageInfoBytes u) =
      [ascii "BALANCE" ++ 61 :: intToDec (u.balance.getD 0),
       ascii "BALANCE_NUM" ++ 61 :: intToDec (u.balance.getD 0),
       ascii "TOTAL" ++ 61 :: intToDec (u.total.getD 0),
       ascii "USED" ++ 61 :: intToDec (u.used.getD 0),
       ascii "EXPIRES" ++ 61 :: u.expires,
       ascii "RAW" ++ 61 :: u.raw] := by
  have hno : ∀ (pre : Bytes), (∀ c ∈ pre, c ≠ LF) → ∀ (i : Int),
      LF ∉ pre ++ 61 :: intToDec i := by
    intro pre hpre i hm
    rcases List.mem_append.mp hm with h | h
    · exact hpre _ h rfl
    · rcases List.mem_cons.mp h with h | h
      · simp [LF] at h
      · exact intToDec_not_lf i h
  have e1 : usageInfoBytes u =
      (ascii "BALANCE" ++ 61 :: intToDec (u.balance.getD 0)) ++ LF ::
      ((ascii "BALANCE_NUM" ++ 61 :: intToDec (u.balance.getD 0)) ++ LF ::
      ((ascii "TOTAL" ++ 61 :: intToDec (u.total.getD 0)) ++ LF ::
      ((ascii "USED" ++ 61 :: intToDec (u.used.getD 0)) ++ LF ::
      ((ascii "EXPIRES" ++ 61 :: u.expires) ++ LF ::
      (ascii "RAW" ++ 61 :: u.raw))))) := by
    simp [usageInfoBytes, ascii, List.append_assoc]
  rw [e1]
  rw [splitByte_append_sep _ (hno (ascii "BALANCE") (by decide) _)]
  rw [splitByte_append_sep _ (hno (ascii "BALANCE_NUM") (by decide) _)]
  rw [splitByte_append_sep _ (hno (ascii "TOTAL") (by decide) _)]
  rw [splitByte_append_sep _ (hno (ascii "USED") (by decide) _)]
  rw [splitByte_append_sep _ (by
    intro hm
    rcases List.mem_append.mp hm with h | h
    · revert h; decide
    · rcases List.mem_cons.mp h with h | h
      · simp [LF] at h
      · exact hexp h)]
  rw [splitByte_no_sep (by
    intro hm
    rcases List.mem_append.mp hm with h | h
    · revert h; decide
    · rcases List.mem_cons.mp h with h | h
      · simp [LF] at h
      · exact hraw h)]

/-- Reading back a written usage dump: the numeric fields come back with
`null` coerced to `0`, empty `expires` as `"?"`. -/
theorem parseUsageInfo_usageInfoBytes (u : KeyUsage)
    (hexp : LF ∉ u.expires) (hraw : LF ∉ u.raw) :
    parseUsageInfo (usageInfoBytes u) = coerceRecord u := by
  have hsplit := splitByte_usageInfo u hexp hraw
  have hk1 : eqKey (ascii "BALANCE" ++ 61 :: intToDec (u.balance.getD 0)) = ascii "BALANCE" :=
    eqKey_line (by decide)
  have hk2 : eqKey (ascii "BALANCE_NUM" ++ 61 :: intToDec (u.balance.getD 0))
      = ascii "BALANCE_NUM" := eqKey_line (by decide)
  have hk3 : eqKey (ascii "TOTAL" ++ 61 :: intToDec (u.total.getD 0)) = ascii "TOTAL" :=
    eqKey_line (by decide)
  have hk4 : eqKey (ascii "USED" ++ 61 :: intToDec (u.used.getD 0)) = ascii "USED" :=
    eqKey_line (by decide)
  have hk5 : eqKey (ascii "EXPIRES" ++ 61 :: u.expires) = ascii "EXPIRES" :=
    eqKey_line (by decide)
  have hk6 : eqKey (ascii "RAW" ++ 61 :: u.raw) = ascii "RAW" := eqKey_line (by decide)
  have hv1 : eqVal (ascii "BALANCE" ++ 61 :: intToDec (u.balance.getD 0))
      = intToDec (u.balance.getD 0) := eqVal_line (by decide)
  have hv2 : eqVal (ascii "BALANCE_NUM" ++ 61 :: intToDec (u.balance.getD 0))
      = intToDec (u.balance.getD 0) := eqVal_line (by decide)
  have hv3 : eqVal (ascii "TOTAL" ++ 61 :: intToDec (u.total.getD 0))
      = intToDec (u.total.getD 0) := eqVal_line (by decide)
  have hv4 : eqVal (ascii "USED" ++ 61 :: intToDec (u.used.getD 0))
      = intToDec (u.used.getD 0) := eqVal_line (by decide)
  have hv5 : eqVal (ascii "EXPIRES" ++ 61 :: u.expires) = u.expires := eqVal_line (by decide)
  have hv6 : eqVal (ascii "RAW" ++ 61 :: u.raw) = u.raw := eqVal_line (by decide)
  have hnum : ∀ (i : Int), numFieldM (some (intToDec i)) = some i := by
    intro i
    unfold numFieldM
    simp only [Option.elim_some]
    rw [if_neg (intToDec_ne_nil i), parseFloatInt_intToDec]
  have n01 := eq_false (by decide : ¬(ascii "BALANCE" = ascii "BALANCE_NUM"))
  have n02 := eq_false (by decide : ¬(ascii "TOTAL" = ascii "BALANCE_NUM"))
  have n03 := eq_false (by decide : ¬(ascii "USED" = ascii "BALANCE_NUM"))
  have n04 := eq_false (by decide : ¬(ascii "EXPIRES" = ascii "BALANCE_NUM"))
  have n05 := eq_false (by decide : ¬(ascii "RAW" = ascii "BALANCE_NUM"))
  have n06 := eq_false (by decide : ¬(ascii "BALANCE" = ascii "TOTAL"))
  have n07 := eq_false (by decide : ¬(ascii "BALANCE_NUM" = ascii "TOTAL"))
  have n08 := eq_false (by decide : ¬(ascii "USED" = ascii "TOTAL"))
  have n09 := eq_false (by decide : ¬(ascii "EXPIRES" = ascii "TOTAL"))
  have n10 := eq_false (by decide : ¬(ascii "RAW" = ascii "TOTAL"))
  have n11 := eq_false (by decide : ¬(ascii "BALANCE" = ascii "USED"))
  have n12 := eq_false (by decide : ¬(ascii "BALANCE_NUM" = ascii "USED"))
  have n13 := eq_false (by decide : ¬(ascii "TOTAL" = ascii "USED"))
  have n14 := eq_false (by decide : ¬(ascii "EXPIRES" = ascii "USED"))
  have n15 := eq_false (by decide : ¬(ascii "RAW" = ascii "USED"))
  have n16 := eq_false (by decide : ¬(ascii "BALANCE" = ascii "EXPIRES"))
  have n17 := eq_false (by decide : ¬(ascii "BALANCE_NUM" = ascii "EXPIRES"))
  have n18 := eq_false (by decide : ¬(ascii "TOTAL" = ascii "EXPIRES"))
  have n19 := eq_false (by decide : ¬(ascii "USED" = ascii "EXPIRES"))
  have n20 := eq_false (by decide : ¬(ascii "RAW" = ascii "EXPIRES"))
  have n21 := eq_false (by decide : ¬(ascii "BALANCE" = ascii "RAW"))
  have n22 := eq_false (by decide : ¬(ascii "BALANCE_NUM" = ascii "RAW"))
  have n23 := eq_false (by decide : ¬(ascii "TOTAL" = ascii "RAW"))
  have n24 := eq_false (by decide : ¬(ascii "USED" = ascii "RAW"))
  have n25 := eq_false (by decide : ¬(ascii "EXPIRES" = ascii "RAW"))
  unfold parseUsageInfo recGet
  rw [hsplit]
  simp only [List.filterMap_cons, List.filterMap_nil, hk1, hk2, hk3, hk4, hk5, hk6,
    hv1, hv2, hv3, hv4, hv5, hv6, n01, n02, n03, n04, n05, n06, n07, n08, n09, n10,
    n11, n12, n13, n14, n15, n16, n17, n18, n19, n20, n21, n22, n23, n24, n25,
    eq_self_iff_true, if_true, if_false]
  simp only [List.getLast?_singleton, hnum]
  unfold coerceRecord strFieldM
  simp only [Option.elim_some]
  congr 1
  by_cases hr : u.raw = []
  · rw [if_pos hr, hr]
  · rw [if_neg hr]

/-- The record at a cache position as `readCache` reproduces it from a
`writeCache` entry. -/
def readBack (u : KeyUsage) : KeyUsage :=
  parseUsageInfo (b64Decode (b64Encode (usageInfoBytes u)))

/-- The association list a clean cache write reads back as. -/
def enumRecords (start : Nat) : List KeyUsage → List (Nat × KeyUsage)
  | [] => []
  | u :: us => (start, readBack u) :: enumRecords (start + 1) us

/-- A record the cache write/read cycle preserves exactly. -/
def serializableRec (u : KeyUsage) : Prop :=
  cleanStr u.expires ∧ cleanStr u.raw ∧ coerceRecord u = u

instance (u : KeyUsage) : Decidable (serializableRec u) := by
  unfold serializableRec; infer_instance

theorem mem_joinByte {sep : Nat} :
    ∀ {ls : List Bytes} {b : Nat}, b ∈ joinByte sep ls → b = sep ∨ ∃ l ∈ ls, b ∈ l := by
  intro ls
  induction ls with
  | nil => intro b hb; simp [joinByte] at hb
  | cons l rest ih =>
    intro b hb
    cases rest with
    | nil =>
      right
      exact ⟨l, List.mem_cons_self l [], hb⟩
    | cons l2 rest2 =>
      rw [show joinByte sep (l :: l2 :: rest2) = l ++ sep :: joinByte sep (l2 :: rest2)
        from rfl] at hb
      rcases List.mem_append.mp hb with h | h
      · exact Or.inr ⟨l, List.mem_cons_self l _, h⟩
      · rcases List.mem_cons.mp h with h | h
        · exact Or.inl h
        · rcases ih h with h' | ⟨l', hl', hb'⟩
          · exact Or.inl h'
          · exact Or.inr ⟨l', List.mem_cons_of_mem l hl', hb'⟩

theorem splitByte_joinByte {sep : Nat} :
    ∀ {ls : List Bytes}, ls ≠ [] → (∀ l ∈ ls, sep ∉ l) →
      splitByte sep (joinByte sep ls) = ls := by
  intro ls
  induction ls with
  | nil => intro h _; exact absurd rfl h
  | cons l rest ih =>
    intro _ hall
    cases rest with
    | nil =>
      show splitByte sep l = [l]
      exact splitByte_no_sep (hall l (List.mem_cons_self l []))
    | cons l2 rest2 =>
      rw [show joinByte sep (l :: l2 :: rest2) = l ++ sep :: joinByte sep (l2 :: rest2)
        from rfl]
      rw [splitByte_append_sep _ (hall l (List.mem_cons_self l _))]
      rw [ih (List.cons_ne_nil l2 rest2) (fun x m => hall x (List.mem_cons_of_mem l m))]

theorem usageInfoBytes_eq_join (u : KeyUsage) :
    usageInfoBytes u = joinByte LF
      [ascii "BALANCE" ++ 61 :: intToDec (u.balance.getD 0),
       ascii "BALANCE_NUM" ++ 61 :: intToDec (u.balance.getD 0),
       ascii "TOTAL" ++ 61 :: intToDec (u.total.getD 0),
       ascii "USED" ++ 61 :: intToDec (u.used.getD 0),
       ascii "EXPIRES" ++ 61 :: u.expires,
       ascii "RAW" ++ 61 :: u.raw] := by
  simp [usageInfoBytes, joinByte, ascii, List.append_assoc]

theorem usageInfoBytes_ne_nil (u : KeyUsage) : usageInfoBytes u ≠ [] := by
  rw [usageInfoBytes_eq_join]
  intro h
  have := congrArg List.length h
  simp [joinByte, ascii] at this

theorem usageInfoBytes_lt_256 (u : KeyUsage)
    (hexp : ∀ b ∈ u.expires, b < 256) (hraw : ∀ b ∈ u.raw, b < 256) :
    ∀ b ∈ usageInfoBytes u, b < 256 := by
  intro b hb
  rw [usageInfoBytes_eq_join] at hb
  rcases mem_joinByte hb with h | ⟨l, hl, hbl⟩
  · simp [h, LF]
  · have hline : ∀ (name val : Bytes), (∀ c ∈ name, c < 256) → (∀ c ∈ val, c < 256) →
        b ∈ name ++ 61 :: val → b < 256 := by
      intro name val hn hv hm
      rcases List.mem_append.mp hm with h | h
      · exact hn b h
      · rcases List.mem_cons.mp h with h | h
        · omega
        · exact hv b h
    fin_cases hl
    · exact hline _ _ (by decide) (intToDec_lt_256 _) hbl
    · exact hline _ _ (by decide) (intToDec_lt_256 _) hbl
    · exact hline _ _ (by decide) (intToDec_lt_256 _) hbl
    · exact hline _ _ (by decide) (intToDec_lt_256 _) hbl
    · exact hline _ _ (by decide) hexp hbl
    · exact hline _ _ (by decide) hraw hbl

/-- With byte-valued string fields, the read-back record is exactly the
parse of the dump (base64 is transparent). -/
theorem readBack_eq_parse (u : KeyUsage)
    (hexp : ∀ b ∈ u.expires, b < 256) (hraw : ∀ b ∈ u.raw, b < 256) :
    readBack u = parseUsageInfo (usageInfoBytes u) := by
  unfold readBack
  rw [b64Decode_b64Encode _ (usageInfoBytes_lt_256 u hexp hraw)]

theorem readBack_eq_coerce (u : KeyUsage)
    (hexp : cleanStr u.expires) (hraw : cleanStr u.raw) :
    readBack u = coerceRecord u := by
  rw [readBack_eq_parse u hexp.2 hraw.2]
  exact parseUsageInfo_usageInfoBytes u hexp.1 hraw.1

theorem readBack_serializable {u : KeyUsage} (h : serializableRec u) : readBack u = u := by
  rw [readBack_eq_coerce u h.1 h.2.1]
  exact h.2.2

theorem b64Encode_not_ws : ∀ (bs : Bytes), ∀ x ∈ b64Encode bs, jsWs x = false := by
  have hchar : ∀ (v : Nat), jsWs (b64Char v) = false := by
    intro v
    unfold b64Char jsWs
    split_ifs <;>
      (simp only [Bool.or_eq_false_iff, decide_eq_false_iff_not]; omega)
  intro bs
  induction bs using b64Encode.induct with
  | case1 => intro x hx; simp [b64Encode] at hx
  | case2 a =>
    intro x hx
    simp only [b64Encode, List.mem_cons, List.not_mem_nil, or_false] at hx
    rcases hx with h | h | h | h <;> subst h <;> first | exact hchar _ | decide
  | case3 a b =>
    intro x hx
    simp only [b64Encode, List.mem_cons, List.not_mem_nil, or_false] at hx
    rcases hx with h | h | h | h <;> subst h <;> first | exact hchar _ | decide
  | case4 a b c rest ih =>
    intro x hx
    simp only [b64Encode, List.mem_cons] at hx
    rcases hx with h | h | h | h | h
    · subst h; exact hchar _
    · subst h; exact hchar _
    · subst h; exact hchar _
    · subst h; exact hchar _
    · exact ih x h

theorem dropWhile_head_neg {p : Nat → Bool} :
    ∀ {l : Bytes}, (∀ b, l.head? = some b → p b = false) → l.dropWhile p = l
  | [], _ => rfl
  | x :: xs, h => by
    rw [List.dropWhile_cons_of_neg]
    simp [h x rfl]

theorem mem_of_getLast?_eq : ∀ {l : Bytes} {b : Nat}, l.getLast? = some b → b ∈ l
  | [], b, h => by simp at h
  | [a], b, h => by
    simp only [List.getLast?_singleton, Option.some.injEq] at h
    simp [h]
  | a :: a2 :: rest, b, h => by
    rw [List.getLast?_cons_cons] at h
    exact List.mem_cons_of_mem a (mem_of_getLast?_eq h)

theorem trimBytes_ends {l : Bytes} (h1 : ∀ b, l.head? = some b → jsWs b = false)
    (h2 : ∀ b, l.getLast? = some b → jsWs b = false) : trimBytes l = l := by
  unfold trimBytes
  rw [dropWhile_head_neg h1]
  rw [dropWhile_head_neg (fun b hb => h2 b (by rwa [List.head?_reverse] at hb))]
  exact List.reverse_reverse l

theorem cacheEntryLine_not_lf (i : Nat) (u : KeyUsage) : LF ∉ cacheEntryLine i u := by
  intro hm
  unfold cacheEntryLine at hm
  rcases List.mem_append.mp hm with h | h
  · exact natToDec_not_lf i h
  · rcases List.mem_cons.mp h with h | h
    · simp [LF, TAB] at h
    · exact (b64Encode_not_tab_lf _ _ h).2 rfl

/-- Parsing one written cache entry line stores the read-back record at its
position. -/
theorem readCacheLine_entry (m : List (Nat × KeyUsage)) (i : Nat) (u : KeyUsage) :
    readCacheLine m (cacheEntryLine i u) = mapSet m i (readBack u) := by
  have hb64ne : b64Encode (usageInfoBytes u) ≠ [] :=
    b64Encode_ne_nil (usageInfoBytes_ne_nil u)
  have htrim : trimBytes (cacheEntryLine i u) = cacheEntryLine i u := by
    refine trimBytes_ends ?_ ?_
    · intro b hb
      unfold cacheEntryLine at hb
      rcases hh : natToDec i with _ | ⟨d, ds⟩
      · exact absurd hh (natToDec_ne_nil i)
      · rw [hh] at hb
        simp only [List.cons_append, List.head?_cons, Option.some.injEq] at hb
        rw [← hb]
        exact (isDigit_props (natToDec_digits i d (hh ▸ List.mem_cons_self d ds))).1
    · intro b hb
      unfold cacheEntryLine at hb
      rw [List.getLast?_append_of_ne_nil _ (List.cons_ne_nil _ _)] at hb
      rw [show (TAB :: b64Encode (usageInfoBytes u)) = [TAB] ++ b64Encode (usageInfoBytes u)
        from rfl, List.getLast?_append_of_ne_nil _ hb64ne] at hb
      exact b64Encode_not_ws _ b (mem_of_getLast?_eq hb)
  have hdigtab : ∀ c ∈ natToDec i, (c != TAB) = true := by
    intro c hc
    simp only [bne_iff_ne, ne_eq]
    exact (isDigit_props (natToDec_digits i c hc)).2.2.2.1
  have htab : ((TAB : Nat) != TAB) = false := by simp
  have hidx : (cacheEntryLine i u).takeWhile (fun b => b != TAB) = natToDec i := by
    unfold cacheEntryLine
    exact takeWhile_append_stop hdigtab htab
  have hb64f : (((cacheEntryLine i u).dropWhile (fun b => b != TAB)).drop 1).takeWhile
      (fun b => b != TAB) = b64Encode (usageInfoBytes u) := by
    unfold cacheEntryLine
    rw [dropWhile_append_stop hdigtab htab]
    rw [List.drop_one, List.tail_cons]
    refine takeWhile_of_all_pos ?_
    intro c hc
    simp only [bne_iff_ne, ne_eq]
    exact (b64Encode_not_tab_lf _ c hc).1
  unfold readCacheLine
  rw [htrim, hidx, hb64f]
  rw [if_neg (by
    intro h
    exact absurd (congrArg List.length h) (by
      simp only [List.length_nil, cacheEntryLine, List.length_append]
      intro he
      have h1 : natToDec i ≠ [] := natToDec_ne_nil i
      have : 0 < (natToDec i).length := List.length_pos.mpr h1
      omega))]
  rw [if_neg (by
    push_neg
    exact ⟨natToDec_ne_nil i, hb64ne⟩)]
  rw [parseIntLoose_natToDec i]
  show (if (0 : Int) ≤ (i : Int) then
      mapSet m ((i : Int)).toNat (parseUsageInfo (b64Decode (b64Encode (usageInfoBytes u))))
    else m) = mapSet m i (readBack u)
  rw [if_pos (by omega), show ((i : Int)).toNat = i from by omega]
  rfl

theorem entryLines_not_lf (us : List KeyUsage) :
    ∀ (s : Nat), ∀ l ∈ entryLines s us, LF ∉ l := by
  induction us with
  | nil => intro s l hl; simp [entryLines] at hl
  | cons u us ih =>
    intro s l hl
    rcases List.mem_cons.mp hl with h | h
    · subst h; exact cacheEntryLine_not_lf s u
    · exact ih (s + 1) l h

theorem entryLines_length (us : List KeyUsage) : ∀ (s : Nat),
    (entryLines s us).length = us.length := by
  induction us with
  | nil => intro s; rfl
  | cons u us ih => intro s; simp [entryLines, ih (s + 1)]

theorem mapSet_append_fresh {m : List (Nat × KeyUsage)} {k : Nat} {v : KeyUsage}
    (h : ∀ p ∈ m, p.1 < k) : mapSet m k v = m ++ [(k, v)] := by
  unfold mapSet
  rw [if_neg]
  simp only [List.any_eq_true, not_exists, not_and, Bool.not_eq_true]
  intro p hp
  simp only [beq_eq_false_iff_ne, ne_eq]
  exact Nat.ne_of_lt (h p hp)

theorem foldl_entryLines (us : List KeyUsage) :
    ∀ (s : Nat) (m : List (Nat × KeyUsage)), (∀ p ∈ m, p.1 < s) →
      (entryLines s us).foldl readCacheLine m = m ++ enumRecords s us := by
  induction us with
  | nil => intro s m _; simp [entryLines, enumRecords]
  | cons u us ih =>
    intro s m hm
    show (entryLines (s + 1) us).foldl readCacheLine (readCacheLine m (cacheEntryLine s u))
        = m ++ enumRecords s (u :: us)
    rw [readCacheLine_entry, mapSet_append_fresh hm]
    rw [ih (s + 1) (m ++ [(s, readBack u)]) (by
      intro p hp
      rcases List.mem_append.mp hp with h | h
      · exact Nat.lt_succ_of_lt (hm p h)
      · simp only [List.mem_singleton] at h
        subst h
        exact Nat.lt_succ_self s)]
    simp [enumRecords]

/-- Reading back a written cache file: one entry per written position, in
order, each holding the read-back record. -/
theorem readCacheM_writeCache (now : Nat) (hashHex : Bytes) (hh : LF ∉ hashHex)
    (us : List KeyUsage) :
    readCacheM (some (writeCacheContent now hashHex us)) = enumRecords 0 us := by
  have hsplit : splitByte LF (writeCacheContent now hashHex us)
      = natToDec now :: hashHex :: entryLines 0 us := by
    unfold writeCacheContent
    refine splitByte_joinByte (List.cons_ne_nil _ _) ?_
    intro l hl
    rcases List.mem_cons.mp hl with h | h
    · subst h; exact natToDec_not_lf now
    · rcases List.mem_cons.mp h with h | h
      · subst h; exact hh
      · exact entryLines_not_lf us 0 l h
  show (if (splitByte LF (writeCacheContent now hashHex us)).length < 3 then []
    else ((splitByte LF (writeCacheContent now hashHex us)).drop 2).foldl readCacheLine [])
    = enumRecords 0 us
  rw [hsplit]
  cases us with
  | nil =>
    rw [if_pos (by simp [entryLines])]
    rfl
  | cons u us' =>
    rw [if_neg (by
      simp only [List.length_cons, entryLines_length]
      omega)]
    show (entryLines 0 (u :: us')).foldl readCacheLine [] = _
    rw [foldl_entryLines _ 0 [] (by intro p hp; simp at hp)]
    rfl

theorem mapGet_cons (k : Nat) (v : KeyUsage) (m : List (Nat × KeyUsage)) (j : Nat) :
    mapGet ((k, v) :: m) j = if k = j then some v else mapGet m j := by
  unfold mapGet
  by_cases h : k = j
  · subst h
    rw [List.find?_cons_of_pos _ (by simp)]
    simp [if_pos rfl]
  · rw [List.find?_cons_of_neg _ (by simpa using h), if_neg h]

theorem mapGet_enumRecords (us : List KeyUsage) : ∀ (s j : Nat),
    mapGet (enumRecords s us) (s + j) = (us.get? j).map readBack := by
  induction us with
  | nil => intro s j; simp [enumRecords, mapGet]
  | cons u us ih =>
    intro s j
    show mapGet ((s, readBack u) :: enumRecords (s + 1) us) (s + j) = _
    rw [mapGet_cons]
    cases j with
    | zero => rw [if_pos (by omega)]; rfl
    | succ j' =>
      rw [if_neg (by omega)]
      rw [show s + (j' + 1) = (s + 1) + j' from by omega, ih (s + 1) j']
      rfl

theorem enumRecords_length (us : List KeyUsage) : ∀ (s : Nat),
    (enumRecords s us).length = us.length := by
  induction us with
  | nil => intro s; rfl
  | cons u us ih => intro s; simp [enumRecords, ih (s + 1)]

theorem firstField_append_tab_any (k : Bytes) : firstField (k ++ [TAB]) = firstField k := by
  induction k with
  | nil => simp [firstField, List.takeWhile]
  | cons x xs ih =>
    unfold firstField at ih ⊢
    by_cases hx : x = TAB
    · subst hx
      simp [List.takeWhile_cons]
    · rw [List.cons_append, List.takeWhile_cons_of_pos (by simpa using hx),
        List.takeWhile_cons_of_pos (by simpa using hx), ih]

theorem splitByte_mem_mem {sep : Nat} :
    ∀ {l : Bytes} {g : Bytes}, g ∈ splitByte sep l → ∀ b ∈ g, b ∈ l := by
  intro l
  induction l with
  | nil =>
    intro g hg b hb
    simp only [splitByte, List.mem_singleton] at hg
    subst hg
    simp at hb
  | cons x xs ih =>
    intro g hg b hb
    simp only [splitByte] at hg
    by_cases hx : x = sep
    · rw [if_pos hx] at hg
      rcases List.mem_cons.mp hg with h | h
      · subst h; simp at hb
      · exact List.mem_cons_of_mem x (ih h b hb)
    · rw [if_neg hx] at hg
      rcases hsp : splitByte sep xs with _ | ⟨g0, gs⟩
      · exact absurd hsp (splitByte_ne_nil xs)
      · rw [hsp] at hg
        rcases List.mem_cons.mp hg with h | h
        · subst h
          rcases List.mem_cons.mp hb with h' | h'
          · exact h' ▸ List.mem_cons_self x xs
          · exact List.mem_cons_of_mem x (ih (hsp ▸ List.mem_cons_self g0 gs) b h')
        · exact List.mem_cons_of_mem x (ih (hsp ▸ List.mem_cons_of_mem g0 h) b hb)

/-! ## Claim theorems -/

/-- C1 counterexample: `decryptKeys(encryptKeys(ks)) == ks` fails as a
universal statement — the secret `"\t"` serializes to a blank line that the
parse drops, so the list `["\t"]` does not survive the round trip. -/
theorem c1_counterexample :
    decryptKeysM testCM (encryptKeysM testCM testSalt [[9]]) ≠ .ok [[9]] := by decide

/-- C1 (amended): for every lawful cipher model and 8-byte salt, the
byte-level round trip `decrypt(encrypt(p)) = p` holds for *all* plaintexts,
and the key-list round trip `decryptKeys(encryptKeys(ks)) = ks` holds for
lists whose secrets are non-blank and free of tabs and newlines. -/
theorem c1_roundtrip_amended (cm : CryptoModel) (hl : cm.Lawful) (salt : Bytes)
    (hs : salt.length = 8) :
    (∀ p : Bytes, decryptBytes cm (encryptBytes cm salt p) = .ok p) ∧
    (∀ ks : List Bytes, (∀ k ∈ ks, wfKey k) →
      decryptKeysM cm (encryptKeysM cm salt ks) = .ok ks) :=
  ⟨fun p => decryptBytes_encryptBytes cm hl salt hs p,
   fun ks hwf => decryptKeysM_encryptKeysM_wf cm hl salt hs ks hwf⟩

theorem c1_roundtrip_amended_witness :
    decryptBytes testCM (encryptBytes testCM testSalt [1, 2, 3]) = .ok [1, 2, 3] ∧
    decryptKeysM testCM (encryptKeysM testCM testSalt [[97], [98, 99]])
      = .ok [[97], [98, 99]] :=
  have h := c1_roundtrip_amended testCM testCM_lawful testSalt (by decide)
  ⟨h.1 [1, 2, 3], h.2 [[97], [98, 99]] (by decide)⟩

/-- C9: the save/list round trip preserves a secret list exactly when
every secret is non-blank and free of tab and newline bytes; a tab truncates
the secret to the text before it, a newline splits it into two entries, and
a blank secret is dropped. -/
theorem c9_serialization_precondition (cm : CryptoModel) (hl : cm.Lawful)
    (salt : Bytes) (hs : salt.length = 8) :
    (∀ ks : List Bytes,
      (decryptKeysM cm (encryptKeysM cm salt ks) = .ok ks ↔ ∀ k ∈ ks, wfKey k)) ∧
    (∀ k : Bytes, isBlank k = false → LF ∉ k →
      decryptKeysM cm (encryptKeysM cm salt [k])
        = .ok [k.takeWhile (fun b => b != TAB)]) ∧
    (∀ k₁ k₂ : Bytes, wfKey k₁ → wfKey k₂ →
      decryptKeysM cm (encryptKeysM cm salt [k₁ ++ LF :: k₂]) = .ok [k₁, k₂]) ∧
    (∀ k : Bytes, isBlank k = true →
      decryptKeysM cm (encryptKeysM cm salt [k]) = .ok []) := by
  refine ⟨?_, ?_, ?_, ?_⟩
  · intro ks
    constructor
    · intro h
      rw [decryptKeysM_encryptKeysM cm hl salt hs] at h
      have hparse : parseKeys (serializeKeys ks) = ks := by
        injection h
      have hall : ∀ k' ∈ ks, TAB ∉ k' ∧ LF ∉ k' := fun k' hk' =>
        parseKeys_mem_tab_lf_free (hparse ▸ hk')
      have hfil : ks.filter (fun k => !isBlank k) = ks := by
        rw [← parseKeys_serializeKeys_filter hall, hparse]
      have hnb := List.filter_eq_self.mp hfil
      intro k hk
      exact ⟨by simpa using hnb k hk, (hall k hk).1, (hall k hk).2⟩
    · exact fun hwf => decryptKeysM_encryptKeysM_wf cm hl salt hs ks hwf
  · intro k hnb hlf
    rw [decryptKeysM_encryptKeysM cm hl salt hs]
    congr 1
    have hnl : LF ∉ k ++ [TAB] := by
      intro hm
      rcases List.mem_append.mp hm with h | h
      · exact hlf h
      · simp [TAB, LF] at h
    show parseKeys (serializeKeys [k]) = _
    rw [show serializeKeys [k] = k ++ [TAB] from rfl]
    unfold parseKeys
    rw [splitByte_no_sep hnl]
    rw [show List.filter (fun l => !isBlank l) [k ++ [TAB]] = [k ++ [TAB]] from by
      have hkeep : (!isBlank (k ++ [TAB])) = true := by
        rw [isBlank_append_tab, hnb]
        rfl
      simp [List.filter_cons, hkeep]]
    rw [List.map_cons, List.map_nil, firstField_append_tab_any]
    rfl
  · intro k₁ k₂ h1 h2
    rw [decryptKeysM_encryptKeysM cm hl salt hs]
    congr 1
    show parseKeys (serializeKeys [k₁ ++ LF :: k₂]) = _
    rw [show serializeKeys [k₁ ++ LF :: k₂] = k₁ ++ LF :: (k₂ ++ [TAB]) from by
      show (k₁ ++ LF :: k₂) ++ [TAB] = k₁ ++ LF :: (k₂ ++ [TAB])
      simp]
    unfold parseKeys
    rw [splitByte_append_sep _ h1.2.2]
    have hnl2 : LF ∉ k₂ ++ [TAB] := by
      intro hm
      rcases List.mem_append.mp hm with h | h
      · exact h2.2.2 h
      · simp [TAB, LF] at h
    rw [splitByte_no_sep hnl2]
    rw [show List.filter (fun l => !isBlank l) [k₁, k₂ ++ [TAB]] = [k₁, k₂ ++ [TAB]] from by
      have e1 : (!isBlank k₁) = true := by rw [h1.1]; rfl
      have e2 : (!isBlank (k₂ ++ [TAB])) = true := by rw [isBlank_append_tab, h2.1]; rfl
      simp [List.filter_cons, e1, e2]]
    rw [List.map_cons, List.map_cons, List.map_nil, firstField_append_tab h2.2.1]
    rw [show firstField k₁ = k₁ from takeWhile_of_all_pos (fun b m => by
      simp only [bne_iff_ne, ne_eq]
      exact fun e => h1.2.1 (e ▸ m))]
  · intro k hb
    rw [decryptKeysM_encryptKeysM cm hl salt hs]
    congr 1
    show parseKeys (serializeKeys [k]) = []
    rw [show serializeKeys [k] = k ++ [TAB] from rfl]
    unfold parseKeys
    rw [show List.filter (fun l => !isBlank l) (splitByte LF (k ++ [TAB])) = [] from by
      rw [List.filter_eq_nil]
      intro g hg
      have hblank : isBlank g = true := by
        unfold isBlank
        rw [List.all_eq_true]
        intro b hbm
        rcases List.mem_append.mp (splitByte_mem_mem hg b hbm) with h | h
        · have := List.all_eq_true.mp hb
          simpa using this b h
        · simp only [List.mem_singleton] at h
          subst h
          simp [jsWs, TAB]
      simp [hblank]]
    rfl

theorem c9_serialization_precondition_witness :
    decryptKeysM testCM (encryptKeysM testCM testSalt [[97], [98]]) = .ok [[97], [98]] ∧
    decryptKeysM testCM (encryptKeysM testCM testSalt [[97, 9, 98]]) = .ok [[97]] ∧
    decryptKeysM testCM (encryptKeysM testCM testSalt [[97] ++ LF :: [98]])
      = .ok [[97], [98]] ∧
    decryptKeysM testCM (encryptKeysM testCM testSalt [[32]]) = .ok [] :=
  have h := c9_serialization_precondition testCM testCM_lawful testSalt (by decide)
  ⟨(h.1 [[97], [98]]).mpr (by decide),
   by
     have h2 := h.2.1 [97, 9, 98] (by decide) (by decide)
     simpa using h2,
   h.2.2.1 [97] [98] (by decide) (by decide),
   h.2.2.2 [32] (by decide)⟩

/-- C8: `fetchUsage` degrades instead of throwing — it is a total
function of the request outcome: a network failure or timeout yields
`raw = "fetch_error"`, `expires = "Error"` and zeroed numerics; a non-2xx
response yields `raw = "http_<status>"`, `expires = "Invalid key"`; a 2xx
response whose body has no usage section yields `raw = "no_usage"`. -/
theorem c8_fetch_degraded (fmtDate : Int → Bytes) :
    (fetchUsageM fmtDate .netFailure
      = ⟨some 0, some 0, some 0, ascii "Error", ascii "fetch_error"⟩) ∧
    (∀ (status : Nat) (body : Option (Option UsageObj)), ¬(200 ≤ status ∧ status ≤ 299) →
      fetchUsageM fmtDate (.response status body)
        = ⟨some 0, some 0, some 0, ascii "Invalid key", ascii "http_" ++ natToDec status⟩) ∧
    (∀ (status : Nat), 200 ≤ status ∧ status ≤ 299 →
      fetchUsageM fmtDate (.response status (some none))
        = ⟨some 0, some 0, some 0, ascii "?", ascii "no_usage"⟩) := by
  refine ⟨rfl, ?_, ?_⟩
  · intro status body h
    simp only [fetchUsageM]
    rw [if_pos h]
  · intro status h
    simp only [fetchUsageM]
    rw [if_neg (not_not_intro h)]

theorem c8_fetch_degraded_witness :
    fetchUsageM (fun _ => []) .netFailure
      = ⟨some 0, some 0, some 0, ascii "Error", ascii "fetch_error"⟩ ∧
    fetchUsageM (fun _ => []) (.response 401 none)
      = ⟨some 0, some 0, some 0, ascii "Invalid key", ascii "http_401"⟩ ∧
    fetchUsageM (fun _ => []) (.response 200 (some none))
      = ⟨some 0, some 0, some 0, ascii "?", ascii "no_usage"⟩ :=
  have h := c8_fetch_degraded (fun _ => [])
  ⟨h.1,
   by
     rw [h.2.1 401 none (by decide)]
     decide,
   h.2.2 200 (by decide)⟩

/-! ### Operation reduction lemmas -/

theorem loadKeysM_some {cm : CryptoModel} {st : FsState} {data : Bytes} {ks : List Bytes}
    (h1 : st.keysFile = some data) (h2 : decryptKeysM cm data = .ok ks) :
    loadKeysM cm st = some ks := by
  unfold loadKeysM
  rw [h1]
  show (match decryptKeysM cm data with
    | .error _ => none
    | .ok keys => some keys) = some ks
  rw [h2]

theorem useKeyM_loaded {cm : CryptoModel} {st : FsState} {ks : List Bytes}
    (h : loadKeysM cm st = some ks) (index : Int) :
    useKeyM cm index st = if index < 1 ∨ index > ks.length then (.indexOutOfRange, st)
      else (.success, { st with currentFile := some (intToDec index) }) := by
  unfold useKeyM
  rw [h]

theorem removeKeyM_loaded {cm : CryptoModel} {st : FsState} {ks : List Bytes}
    (h : loadKeysM cm st = some ks) (salt : Bytes) (index : Int) :
    removeKeyM cm salt index st
      = if index < 1 ∨ index > ks.length then (.indexOutOfRange, st)
        else (.success,
          { keysFile := some (encryptKeysM cm salt (keysFilterNe index 0 ks))
            cacheFile := none
            currentFile := some (ascii "1") }) := by
  unfold removeKeyM
  rw [h]

theorem addKeyM_loaded {cm : CryptoModel} {st : FsState} {ks : List Bytes}
    (h : loadKeysM cm st = some ks) (salt : Bytes) (now : Nat) (hashFn : Bytes → Bytes)
    (fetched : KeyUsage) (key : Bytes) :
    addKeyM cm salt now hashFn fetched key st
      = (.success,
         { st with
            keysFile := some (encryptKeysM cm salt (ks ++ [key]))
            cacheFile := some (writeCacheContent now
              (hashFn (encryptKeysM cm salt (ks ++ [key])))
              ((List.range ks.length).map
                (fun i => (mapGet (readCacheM st.cacheFile) i).getD allUnknown)
                ++ [fetched])) }) := by
  unfold addKeyM
  rw [h]

theorem getKeyListM_loaded {cm : CryptoModel} {st : FsState} {ks : List Bytes}
    (h : loadKeysM cm st = some ks) :
    getKeyListM cm st
      = keyInfoRows (readCurrentIndexM st.currentFile) (readCacheM st.cacheFile) 0 ks := by
  unfold getKeyListM
  rw [h]

theorem keyInfoRows_keys (cur : Int) (cache : List (Nat × KeyUsage)) :
    ∀ (ks : List Bytes) (idx : Nat),
      (keyInfoRows cur cache idx ks).map (fun r => r.key) = ks := by
  intro ks
  induction ks with
  | nil => intro idx; rfl
  | cons k ks ih =>
    intro idx
    show k :: (keyInfoRows cur cache (idx + 1) ks).map (fun r => r.key) = k :: ks
    rw [ih (idx + 1)]

theorem keyInfoRows_length (cur : Int) (cache : List (Nat × KeyUsage)) :
    ∀ (ks : List Bytes) (idx : Nat), (keyInfoRows cur cache idx ks).length = ks.length := by
  intro ks
  induction ks with
  | nil => intro idx; rfl
  | cons k ks ih =>
    intro idx
    show (keyInfoRows cur cache (idx + 1) ks).length + 1 = ks.length + 1
    rw [ih (idx + 1)]

theorem intToDec_natCast (j : Nat) : intToDec (j : Int) = natToDec j := by
  have htn : (((j : Nat) : Int)).toNat = j := by omega
  unfold intToDec
  rw [if_neg (by omega), htn]

/-- C7: with a store decrypting to `n` keys, `use(j)` for `1 ≤ j ≤ n`
succeeds, afterwards `getActive() = j`, and neither the store nor the cache
is touched; `use(j)` for `j` outside `[1, n]` fails with the
index-out-of-range error and leaves the whole state (pointer, list, cache)
unchanged. -/
theorem c7_use_semantics (cm : CryptoModel) (st : FsState) (data : Bytes)
    (ks : List Bytes) (hdata : st.keysFile = some data)
    (hdec : decryptKeysM cm data = .ok ks) :
    (∀ j : Nat, 1 ≤ j → j ≤ ks.length →
      useKeyM cm (j : Int) st
        = (.success, { st with currentFile := some (intToDec (j : Int)) }) ∧
      readCurrentIndexM ((useKeyM cm (j : Int) st).2.currentFile) = (j : Int) ∧
      (useKeyM cm (j : Int) st).2.keysFile = st.keysFile ∧
      (useKeyM cm (j : Int) st).2.cacheFile = st.cacheFile) ∧
    (∀ j : Int, (j < 1 ∨ j > ks.length) → useKeyM cm j st = (.indexOutOfRange, st)) := by
  have hload := loadKeysM_some hdata hdec
  constructor
  · intro j h1 hn
    have heq : useKeyM cm (j : Int) st
        = (.success, { st with currentFile := some (intToDec (j : Int)) }) := by
      rw [useKeyM_loaded hload, if_neg (by push_neg; omega)]
    refine ⟨heq, ?_, ?_, ?_⟩
    · rw [heq]
      show readCurrentIndexM (some (intToDec (j : Int))) = (j : Int)
      rw [intToDec_natCast, readCurrentIndexM_natToDec h1]
    · rw [heq]
    · rw [heq]
  · intro j hj
    rw [useKeyM_loaded hload, if_pos (by omega)]

theorem c7_use_semantics_witness :
    useKeyM testCM ((1 : Nat) : Int) ⟨some (encryptKeysM testCM testSalt [[97]]), none, none⟩
      = (.success, ⟨some (encryptKeysM testCM testSalt [[97]]), some (intToDec 1), none⟩) ∧
    useKeyM testCM 2 ⟨some (encryptKeysM testCM testSalt [[97]]), none, none⟩
      = (.indexOutOfRange, ⟨some (encryptKeysM testCM testSalt [[97]]), none, none⟩) :=
  have h := c7_use_semantics testCM
    ⟨some (encryptKeysM testCM testSalt [[97]]), none, none⟩
    (encryptKeysM testCM testSalt [[97]]) [[97]] rfl (by decide)
  ⟨(h.1 1 (by decide) (by decide)).1, h.2 2 (by decide)⟩

theorem keysFilterNe_all_kept :
    ∀ (ks : List Bytes) (s : Nat) (t : Int), t < (s : Int) + 1 →
      keysFilterNe t s ks = ks := by
  intro ks
  induction ks with
  | nil => intro s t _; rfl
  | cons k ks ih =>
    intro s t ht
    show (if ((s : Int) + 1) = t then keysFilterNe t (s + 1) ks
      else k :: keysFilterNe t (s + 1) ks) = k :: ks
    rw [if_neg (by omega), ih (s + 1) t (by push_cast; omega)]

theorem keysFilterNe_eraseIdx :
    ∀ (ks : List Bytes) (s j : Nat), j < ks.length →
      keysFilterNe ((s + j + 1 : Nat) : Int) s ks = ks.eraseIdx j := by
  intro ks
  induction ks with
  | nil => intro s j hj; simp at hj
  | cons k ks ih =>
    intro s j hj
    cases j with
    | zero =>
      show (if ((s : Int) + 1) = ((s + 0 + 1 : Nat) : Int) then
          keysFilterNe ((s + 0 + 1 : Nat) : Int) (s + 1) ks
        else k :: keysFilterNe ((s + 0 + 1 : Nat) : Int) (s + 1) ks) = (k :: ks).eraseIdx 0
      rw [if_pos (by push_cast; omega)]
      rw [keysFilterNe_all_kept ks (s + 1) _ (by push_cast; omega)]
      rfl
    | succ j' =>
      show (if ((s : Int) + 1) = ((s + (j' + 1) + 1 : Nat) : Int) then
          keysFilterNe ((s + (j' + 1) + 1 : Nat) : Int) (s + 1) ks
        else k :: keysFilterNe ((s + (j' + 1) + 1 : Nat) : Int) (s + 1) ks)
        = (k :: ks).eraseIdx (j' + 1)
      rw [if_neg (by push_cast; omega)]
      rw [show ((s + (j' + 1) + 1 : Nat) : Int) = (((s + 1) + j' + 1 : Nat) : Int) from by
        push_cast; omega]
      rw [ih (s + 1) j' (by simpa using hj)]
      rfl

theorem mem_of_mem_eraseIdx {l : List Bytes} {i : Nat} {x : Bytes}
    (h : x ∈ l.eraseIdx i) : x ∈ l := by
  rw [List.eraseIdx_eq_take_drop_succ] at h
  rcases List.mem_append.mp h with h | h
  · exact List.mem_of_mem_take h
  · exact List.mem_of_mem_drop h

/-- C3: with a well-formed store decrypting to `ks`, `remove(i)` for
`1 ≤ i ≤ len` succeeds, the stored list becomes `ks` with exactly position
`i` deleted (order preserved), the active pointer reads back as `1`, and the
cache file is destroyed so a read yields the empty mapping; `remove(i)` for
`i` outside `[1, len]` fails with the index-out-of-range error and performs
no mutation. -/
theorem c3_remove_postcondition (cm : CryptoModel) (hl : cm.Lawful) (salt : Bytes)
    (hsalt : salt.length = 8) (st : FsState) (data : Bytes) (ks : List Bytes)
    (hdata : st.keysFile = some data) (hdec : decryptKeysM cm data = .ok ks)
    (hwf : ∀ k ∈ ks, wfKey k) :
    (∀ i : Nat, 1 ≤ i → i ≤ ks.length →
      removeKeyM cm salt (i : Int) st
        = (.success,
           { keysFile := some (encryptKeysM cm salt (ks.eraseIdx (i - 1)))
             cacheFile := none
             currentFile := some (ascii "1") }) ∧
      decryptKeysM cm (encryptKeysM cm salt (ks.eraseIdx (i - 1)))
        = .ok (ks.eraseIdx (i - 1)) ∧
      readCurrentIndexM (some (ascii "1")) = 1 ∧
      readCacheM (none : Option Bytes) = []) ∧
    (∀ i : Int, (i < 1 ∨ i > ks.length) → removeKeyM cm salt i st = (.indexOutOfRange, st)) := by
  have hload := loadKeysM_some hdata hdec
  constructor
  · intro i h1 hn
    have hfilter : keysFilterNe ((i : Nat) : Int) 0 ks = ks.eraseIdx (i - 1) := by
      rw [show ((i : Nat) : Int) = ((0 + (i - 1) + 1 : Nat) : Int) from by push_cast; omega]
      exact keysFilterNe_eraseIdx ks 0 (i - 1) (by omega)
    refine ⟨?_, ?_, by decide, rfl⟩
    · rw [removeKeyM_loaded hload, if_neg (by push_neg; omega), hfilter]
    · exact decryptKeysM_encryptKeysM_wf cm hl salt hsalt _
        (fun k hk => hwf k (mem_of_mem_eraseIdx hk))
  · intro i hi
    rw [removeKeyM_loaded hload, if_pos (by omega)]

theorem c3_remove_postcondition_witness :
    removeKeyM testCM testSalt ((1 : Nat) : Int)
      ⟨some (encryptKeysM testCM testSalt [[97], [98]]), some (ascii "2"), some (ascii "x")⟩
      = (.success,
         ⟨some (encryptKeysM testCM testSalt (([[97], [98]] : List Bytes).eraseIdx 0)),
          some (ascii "1"), none⟩) ∧
    removeKeyM testCM testSalt 3
      ⟨some (encryptKeysM testCM testSalt [[97], [98]]), some (ascii "2"), some (ascii "x")⟩
      = (.indexOutOfRange,
         ⟨some (encryptKeysM testCM testSalt [[97], [98]]), some (ascii "2"),
          some (ascii "x")⟩) :=
  have h := c3_remove_postcondition testCM testCM_lawful testSalt (by decide)
    ⟨some (encryptKeysM testCM testSalt [[97], [98]]), some (ascii "2"), some (ascii "x")⟩
    (encryptKeysM testCM testSalt [[97], [98]]) [[97], [98]] rfl (by decide) (by decide)
  ⟨(h.1 1 (by decide) (by decide)).1, h.2 3 (by decide)⟩

/-- C6 counterexample: `add(s)` does not put `s` at the last listing
position for *every* secret `s` — adding `"a\tb"` to an empty store lists as
`"a"` (the text before the tab), not `"a\tb"`. -/
theorem c6_counterexample :
    (getKeyListM testCM (addKeyM testCM testSalt 0 (fun _ => ascii "ff") allUnknown
      [97, 9, 98] ⟨none, none, none⟩).2).map (fun r => r.key) ≠ [[97, 9, 98]] := by decide

/-- C6 (amended): provided the stored secrets and the new secret are
non-blank and tab/newline-free, `add(s)` on a list of length `n` succeeds,
the stored list becomes the old list with `s` appended, the listing shows
`n + 1` entries whose key texts are the old ones unchanged followed by `s`,
and the active-pointer file is not altered (the pointer-file part holds for
every secret, well-formed or not). -/
theorem c6_add_amended (cm : CryptoModel) (hl : cm.Lawful) (salt : Bytes)
    (hsalt : salt.length = 8) (now : Nat) (hashFn : Bytes → Bytes) (fetched : KeyUsage)
    (st : FsState) (data : Bytes) (ks : List Bytes)
    (hdata : st.keysFile = some data) (hdec : decryptKeysM cm data = .ok ks)
    (hwf : ∀ k ∈ ks, wfKey k) (s : Bytes) (hs : wfKey s) :
    (addKeyM cm salt now hashFn fetched s st).1 = .success ∧
    (addKeyM cm salt now hashFn fetched s st).2.keysFile
      = some (encryptKeysM cm salt (ks ++ [s])) ∧
    decryptKeysM cm (encryptKeysM cm salt (ks ++ [s])) = .ok (ks ++ [s]) ∧
    (getKeyListM cm (addKeyM cm salt now hashFn fetched s st).2).map (fun r => r.key)
      = ks ++ [s] ∧
    (getKeyListM cm (addKeyM cm salt now hashFn fetched s st).2).length = ks.length + 1 ∧
    (addKeyM cm salt now hashFn fetched s st).2.currentFile = st.currentFile := by
  have hload := loadKeysM_some hdata hdec
  have hwf' : ∀ k ∈ ks ++ [s], wfKey k := by
    intro k hk
    rcases List.mem_append.mp hk with h | h
    · exact hwf k h
    · rw [List.mem_singleton.mp h]
      exact hs
  have hdec' : decryptKeysM cm (encryptKeysM cm salt (ks ++ [s])) = .ok (ks ++ [s]) :=
    decryptKeysM_encryptKeysM_wf cm hl salt hsalt _ hwf'
  have heq := addKeyM_loaded hload salt now hashFn fetched s
  have hload' : loadKeysM cm (addKeyM cm salt now hashFn fetched s st).2
      = some (ks ++ [s]) := by
    rw [heq]
    exact loadKeysM_some rfl hdec'
  have hlist := getKeyListM_loaded hload'
  refine ⟨by rw [heq], by rw [heq], hdec', ?_, ?_, by rw [heq]⟩
  · rw [hlist, keyInfoRows_keys]
  · rw [hlist, keyInfoRows_length]
    simp

theorem c6_add_amended_witness :
    (addKeyM testCM testSalt 0 (fun _ => ascii "ff") allUnknown [98]
      ⟨some (encryptKeysM testCM testSalt [[97]]), some (ascii "1"), none⟩).2.keysFile
      = some (encryptKeysM testCM testSalt [[97], [98]]) ∧
    (getKeyListM testCM (addKeyM testCM testSalt 0 (fun _ => ascii "ff") allUnknown [98]
      ⟨some (encryptKeysM testCM testSalt [[97]]), some (ascii "1"), none⟩).2).map
        (fun r => r.key) = [[97], [98]] ∧
    (addKeyM testCM testSalt 0 (fun _ => ascii "ff") allUnknown [98]
      ⟨some (encryptKeysM testCM testSalt [[97]]), some (ascii "1"), none⟩).2.currentFile
      = some (ascii "1") :=
  have h := c6_add_amended testCM testCM_lawful testSalt (by decide) 0 (fun _ => ascii "ff")
    allUnknown ⟨some (encryptKeysM testCM testSalt [[97]]), some (ascii "1"), none⟩
    (encryptKeysM testCM testSalt [[97]]) [[97]] rfl (by decide) (by decide) [98] (by decide)
  ⟨h.2.1, h.2.2.2.1, h.2.2.2.2.2⟩

/-- C4 counterexample: a store file that exists but cannot be decrypted
does not make `list()` fail — the catch in `getKeyList` absorbs the
decryption error and returns the empty list, indistinguishable from the
no-store-yet result. -/
theorem c4_counterexample :
    decryptKeysM testCM (ascii "notsalted_xxxxxx") = .error .badFormat ∧
    getKeyListM testCM ⟨some (ascii "notsalted_xxxxxx"), none, none⟩ = [] ∧
    getKeyListM testCM ⟨none, none, none⟩ = [] := by decide

/-- C4 (amended): `list()` never fails at all: a missing store yields the
empty list, an undecryptable store also yields the empty list (the error is
caught and absorbed), and the cache file's content can never affect either
success or the key/index/isCurrent parts of the rows — only the attached
usage values. -/
theorem c4_list_never_fails_amended (cm : CryptoModel) :
    (∀ st : FsState, st.keysFile = none → getKeyListM cm st = []) ∧
    (∀ (st : FsState) (data : Bytes) (e : CryptoErr), st.keysFile = some data →
      decryptKeysM cm data = .error e → getKeyListM cm st = []) ∧
    (∀ (st : FsState) (c c' : Option Bytes),
      (getKeyListM cm { st with cacheFile := c }).map (fun r => (r.key, r.index, r.isCurrent))
        = (getKeyListM cm { st with cacheFile := c' }).map
            (fun r => (r.key, r.index, r.isCurrent))) := by
  have hrows : ∀ (cur : Int) (cache cache' : List (Nat × KeyUsage)) (ks : List Bytes)
      (idx : Nat),
      (keyInfoRows cur cache idx ks).map (fun r => (r.key, r.index, r.isCurrent))
        = (keyInfoRows cur cache' idx ks).map (fun r => (r.key, r.index, r.isCurrent)) := by
    intro cur cache cache' ks
    induction ks with
    | nil => intro idx; rfl
    | cons k ks ih =>
      intro idx
      show (k, idx + 1, _) :: _ = (k, idx + 1, _) :: _
      rw [ih (idx + 1)]
  have hnone : ∀ st : FsState, st.keysFile = none → getKeyListM cm st = [] := by
    intro st h
    unfold getKeyListM loadKeysM
    rw [h]
  refine ⟨hnone, ?_, ?_⟩
  · intro st data e h1 h2
    unfold getKeyListM loadKeysM
    rw [h1]
    show (match (match decryptKeysM cm data with
      | .error _ => (none : Option (List Bytes))
      | .ok keys => some keys) with
      | none => ([] : List KeyInfo)
      | some keys =>
        keyInfoRows (readCurrentIndexM st.currentFile) (readCacheM st.cacheFile) 0 keys) = []
    rw [h2]
  · intro st c c'
    rcases hkf : st.keysFile with _ | data
    · rw [hnone _ (by simp [hkf]), hnone _ (by simp [hkf])]
    · rcases hdec : decryptKeysM cm data with e | ks
      · unfold getKeyListM loadKeysM
        simp only [hkf, hdec]
      · have hl1 : loadKeysM cm
            { keysFile := some data, currentFile := st.currentFile, cacheFile := c }
            = some ks := loadKeysM_some rfl hdec
        have hl2 : loadKeysM cm
            { keysFile := some data, currentFile := st.currentFile, cacheFile := c' }
            = some ks := loadKeysM_some rfl hdec
        rw [getKeyListM_loaded hl1, getKeyListM_loaded hl2]
        exact hrows _ _ _ ks 0

theorem c4_list_never_fails_amended_witness :
    getKeyListM testCM ⟨none, some (ascii "2"), some (ascii "junk")⟩ = [] ∧
    getKeyListM testCM ⟨some (ascii "notsalted_xxxxxx"), none, none⟩ = [] ∧
    (getKeyListM testCM ⟨some (encryptKeysM testCM testSalt [[97]]), none,
        some (ascii "corrupt cache")⟩).map (fun r => (r.key, r.index, r.isCurrent))
      = (getKeyListM testCM ⟨some (encryptKeysM testCM testSalt [[97]]), none,
          none⟩).map (fun r => (r.key, r.index, r.isCurrent)) :=
  have h := c4_list_never_fails_amended testCM
  ⟨h.1 ⟨none, some (ascii "2"), some (ascii "junk")⟩ rfl,
   h.2.1 ⟨some (ascii "notsalted_xxxxxx"), none, none⟩ (ascii "notsalted_xxxxxx")
     .badFormat rfl (by decide),
   h.2.2 ⟨some (encryptKeysM testCM testSalt [[97]]), none, none⟩
     (some (ascii "corrupt cache")) none⟩

/-- C2: on a store decrypting to `n` keys whose cache is populated at
every position `0..n-1` with records the write/read cycle preserves,
`add(s)` succeeds and the cache read back afterwards has exactly `n + 1`
entries: positions `0..n-1` carry over unchanged from the old cache, and
position `n` holds the record fetched for the new key. -/
theorem c2_merge_on_append (cm : CryptoModel) (salt : Bytes) (now : Nat)
    (hashFn : Bytes → Bytes) (hhash : ∀ bs, LF ∉ hashFn bs)
    (fetched : KeyUsage) (hfetch : serializableRec fetched)
    (st : FsState) (data : Bytes) (ks : List Bytes)
    (hdata : st.keysFile = some data) (hdec : decryptKeysM cm data = .ok ks)
    (hpop : ∀ i < ks.length,
      mapGet (readCacheM st.cacheFile) i
        = some ((mapGet (readCacheM st.cacheFile) i).getD allUnknown) ∧
      serializableRec ((mapGet (readCacheM st.cacheFile) i).getD allUnknown))
    (key : Bytes) :
    (addKeyM cm salt now hashFn fetched key st).1 = .success ∧
    (readCacheM (addKeyM cm salt now hashFn fetched key st).2.cacheFile).length
      = ks.length + 1 ∧
    (∀ i < ks.length,
      mapGet (readCacheM (addKeyM cm salt now hashFn fetched key st).2.cacheFile) i
        = mapGet (readCacheM st.cacheFile) i) ∧
    mapGet (readCacheM (addKeyM cm salt now hashFn fetched key st).2.cacheFile) ks.length
      = some fetched := by
  have heq := addKeyM_loaded (loadKeysM_some hdata hdec) salt now hashFn fetched key
  have hcache : (addKeyM cm salt now hashFn fetched key st).2.cacheFile
      = some (writeCacheContent now (hashFn (encryptKeysM cm salt (ks ++ [key])))
          ((List.range ks.length).map
            (fun i => (mapGet (readCacheM st.cacheFile) i).getD allUnknown)
            ++ [fetched])) := by
    rw [heq]
  have hread : readCacheM (addKeyM cm salt now hashFn fetched key st).2.cacheFile
      = enumRecords 0
          ((List.range ks.length).map
            (fun i => (mapGet (readCacheM st.cacheFile) i).getD allUnknown)
            ++ [fetched]) := by
    rw [hcache]
    exact readCacheM_writeCache now _ (hhash _) _
  have hlen1 : ((List.range ks.length).map
      (fun i => (mapGet (readCacheM st.cacheFile) i).getD allUnknown)
      ++ [fetched]).length = ks.length + 1 := by simp
  refine ⟨by rw [heq], ?_, ?_, ?_⟩
  · rw [hread, enumRecords_length, hlen1]
  · intro i hi
    obtain ⟨hsome, hser⟩ := hpop i hi
    have hget : ((List.range ks.length).map
        (fun i => (mapGet (readCacheM st.cacheFile) i).getD allUnknown)
        ++ [fetched]).get? i
        = some ((mapGet (readCacheM st.cacheFile) i).getD allUnknown) := by
      rw [List.get?_append (by simpa using hi), List.get?_map, List.get?_range hi]
      rfl
    have hmg := mapGet_enumRecords ((List.range ks.length).map
        (fun i => (mapGet (readCacheM st.cacheFile) i).getD allUnknown)
        ++ [fetched]) 0 i
    rw [Nat.zero_add] at hmg
    rw [hread, hmg, hget]
    show some (readBack ((mapGet (readCacheM st.cacheFile) i).getD allUnknown)) = _
    rw [readBack_serializable hser]
    exact hsome.symm
  · have hget : ((List.range ks.length).map
        (fun i => (mapGet (readCacheM st.cacheFile) i).getD allUnknown)
        ++ [fetched]).get? ks.length = some fetched := by
      rw [List.get?_append_right (by simp)]
      simp
    have hmg := mapGet_enumRecords ((List.range ks.length).map
        (fun i => (mapGet (readCacheM st.cacheFile) i).getD allUnknown)
        ++ [fetched]) 0 ks.length
    rw [Nat.zero_add] at hmg
    rw [hread, hmg, hget]
    show some (readBack fetched) = some fetched
    rw [readBack_serializable hfetch]

theorem c2_merge_on_append_witness :
    (addKeyM testCM testSalt 7 (fun _ => ascii "ff")
      ⟨some 3, some 8, some 5, ascii "d", ascii "ok"⟩ [98]
      ⟨some (encryptKeysM testCM testSalt [[97]]), none,
       some (writeCacheContent 3 (ascii "aa")
         [⟨some 5, some 9, some 4, ascii "e", ascii "r"⟩])⟩).1 = .success ∧
    (readCacheM (addKeyM testCM testSalt 7 (fun _ => ascii "ff")
      ⟨some 3, some 8, some 5, ascii "d", ascii "ok"⟩ [98]
      ⟨some (encryptKeysM testCM testSalt [[97]]), none,
       some (writeCacheContent 3 (ascii "aa")
         [⟨some 5, some 9, some 4, ascii "e", ascii "r"⟩])⟩).2.cacheFile).length = 2 ∧
    mapGet (readCacheM (addKeyM testCM testSalt 7 (fun _ => ascii "ff")
      ⟨some 3, some 8, some 5, ascii "d", ascii "ok"⟩ [98]
      ⟨some (encryptKeysM testCM testSalt [[97]]), none,
       some (writeCacheContent 3 (ascii "aa")
         [⟨some 5, some 9, some 4, ascii "e", ascii "r"⟩])⟩).2.cacheFile) 0
      = some ⟨some 5, some 9, some 4, ascii "e", ascii "r"⟩ ∧
    mapGet (readCacheM (addKeyM testCM testSalt 7 (fun _ => ascii "ff")
      ⟨some 3, some 8, some 5, ascii "d", ascii "ok"⟩ [98]
      ⟨some (encryptKeysM testCM testSalt [[97]]), none,
       some (writeCacheContent 3 (ascii "aa")
         [⟨some 5, some 9, some 4, ascii "e", ascii "r"⟩])⟩).2.cacheFile) 1
      = some ⟨some 3, some 8, some 5, ascii "d", ascii "ok"⟩ :=
  have h := c2_merge_on_append testCM testSalt 7 (fun _ => ascii "ff")
    (fun bs => by show LF ∉ ascii "ff"; decide)
    ⟨some 3, some 8, some 5, ascii "d", ascii "ok"⟩ (by decide)
    ⟨some (encryptKeysM testCM testSalt [[97]]), none,
     some (writeCacheContent 3 (ascii "aa")
       [⟨some 5, some 9, some 4, ascii "e", ascii "r"⟩])⟩
    (encryptKeysM testCM testSalt [[97]]) [[97]] rfl (by decide) (by decide) [98]
  ⟨h.1, h.2.1, by
    have h3 := h.2.2.1 0 (by decide)
    rw [h3]
    decide, h.2.2.2⟩

/-- C10 counterexample: a record whose numeric fields are all non-null
does not necessarily survive the cache write/read cycle unchanged — an empty
`expires` string is written as `EXPIRES=` and read back as `"?"`. -/
theorem c10_counterexample :
    readCacheM (some (writeCacheContent 0 (ascii "ff")
      [⟨some 1, some 1, some 0, [], []⟩]))
      ≠ [(0, (⟨some 1, some 1, some 0, [], []⟩ : KeyUsage))] := by decide

/-- C10 (amended): for records whose `expires`/`raw` strings are
byte-valued and newline-free, writing the cache and reading it back yields at
each position the original record with every `null` among `balance`, `total`,
`used` replaced by `0` and an empty `expires` replaced by `"?"`; a record with
all numeric fields non-null and a non-empty `expires` round-trips unchanged,
and the all-unknown record comes back with zeroed numerics instead of nulls. -/
theorem c10_cache_roundtrip_amended (now : Nat) (hashHex : Bytes) (hh : LF ∉ hashHex)
    (us : List KeyUsage) (hclean : ∀ u ∈ us, cleanStr u.expires ∧ cleanStr u.raw) :
    (readCacheM (some (writeCacheContent now hashHex us))).length = us.length ∧
    (∀ i : Nat, mapGet (readCacheM (some (writeCacheContent now hashHex us))) i
      = (us.get? i).map coerceRecord) ∧
    (∀ u : KeyUsage, u.balance ≠ none → u.total ≠ none → u.used ≠ none →
      u.expires ≠ [] → coerceRecord u = u) ∧
    coerceRecord allUnknown = ⟨some 0, some 0, some 0, ascii "?", []⟩ := by
  have hread := readCacheM_writeCache now hashHex hh us
  refine ⟨by rw [hread, enumRecords_length], ?_, ?_, by decide⟩
  · intro i
    have hmg := mapGet_enumRecords us 0 i
    rw [Nat.zero_add] at hmg
    rw [hread, hmg]
    rcases hg : us.get? i with _ | u
    · rfl
    · have hu : u ∈ us := List.get?_mem hg
      show some (readBack u) = some (coerceRecord u)
      rw [readBack_eq_coerce u (hclean u hu).1 (hclean u hu).2]
  · intro u hb ht hus he
    rcases u with ⟨b, t, uu, e, r⟩
    rcases b with _ | bv
    · exact absurd rfl hb
    rcases t with _ | tv
    · exact absurd rfl ht
    rcases uu with _ | uv
    · exact absurd rfl hus
    show (⟨some bv, some tv, some uv, if e = [] then ascii "?" else e, r⟩ : KeyUsage) = _
    rw [if_neg he]

theorem c10_cache_roundtrip_amended_witness :
    mapGet (readCacheM (some (writeCacheContent 7 (ascii "ff") [allUnknown]))) 0
      = some (coerceRecord allUnknown) ∧
    coerceRecord allUnknown = ⟨some 0, some 0, some 0, ascii "?", []⟩ :=
  have h := c10_cache_roundtrip_amended 7 (ascii "ff") (by decide) [allUnknown]
    (fun u hu => by
      rw [List.mem_singleton.mp hu]
      exact ⟨by decide, by decide⟩)
  ⟨by
    have h2 := h.2.1 0
    rw [h2]
    rfl, h.2.2.2⟩

/-- C5 counterexample: `saveKeys` is not a write-temp-then-rename: its
operation trace has no rename at all, and a crash during the single direct
write of the store file leaves an observable state whose store file holds a
proper prefix of the encrypted bytes — a partially written store is
observable. -/
theorem c5_counterexample :
    (saveKeysTrace testCM testSalt [[97]]).all (fun op => !isRenameOp op) = true ∧
    CrashObservable ⟨none, none, none⟩ (saveKeysTrace testCM testSalt [[97]])
      ⟨some ((encryptKeysM testCM testSalt [[97]]).take 8), none, none⟩ ∧
    (encryptKeysM testCM testSalt [[97]]).take 8 ≠ encryptKeysM testCM testSalt [[97]] ∧
    (encryptKeysM testCM testSalt [[97]]).take 8 ≠ [] :=
  ⟨by decide,
   ⟨[FsOp.mkdirp], FsOp.write .keysEnc (encryptKeysM testCM testSalt [[97]]),
    [FsOp.unlink .cacheB64], rfl,
    Or.inl ⟨.keysEnc, encryptKeysM testCM testSalt [[97]], 8, rfl, by decide, by decide⟩⟩,
   by decide, by decide⟩

/-- C5 (amended): every save of the encrypted store is a single direct
write to the final store path — the `saveKeys` trace is exactly
mkdir/write/unlink-cache with no rename (so no write-temp-then-rename
equivalent) — and consequently, from any starting state, every proper prefix
of the encrypted bytes is observable as the store file's content if the
process crashes during the write. -/
theorem c5_save_not_atomic_amended (cm : CryptoModel) (salt : Bytes) (ks : List Bytes)
    (st : FsState) :
    saveKeysTrace cm salt ks
      = [FsOp.mkdirp, FsOp.write .keysEnc (encryptKeysM cm salt ks),
         FsOp.unlink .cacheB64] ∧
    (∀ op ∈ saveKeysTrace cm salt ks, isRenameOp op = false) ∧
    (∀ m : Nat, m < (encryptKeysM cm salt ks).length →
      CrashObservable st (saveKeysTrace cm salt ks)
        { st with keysFile := some ((encryptKeysM cm salt ks).take m) }) := by
  refine ⟨rfl, ?_, ?_⟩
  · intro op hop
    rcases List.mem_cons.mp hop with h | h
    · rw [h]; rfl
    rcases List.mem_cons.mp h with h' | h'
    · rw [h']; rfl
    rcases List.mem_cons.mp h' with h'' | h''
    · rw [h'']; rfl
    · simp at h''
  · intro m hm
    exact ⟨[FsOp.mkdirp], FsOp.write .keysEnc (encryptKeysM cm salt ks),
      [FsOp.unlink .cacheB64], rfl,
      Or.inl ⟨.keysEnc, encryptKeysM cm salt ks, m, rfl, hm, rfl⟩⟩

theorem c5_save_not_atomic_amended_witness :
    (saveKeysTrace testCM testSalt [[97]]).all (fun op => !isRenameOp op) = true ∧
    CrashObservable ⟨none, none, none⟩ (saveKeysTrace testCM testSalt [[97]])
      ⟨some ((encryptKeysM testCM testSalt [[97]]).take 4), none, none⟩ :=
  have h := c5_save_not_atomic_amended testCM testSalt [[97]] ⟨none, none, none⟩
  ⟨by decide, h.2.2 4 (by decide)⟩

end Oroio
